import Mathlib

/-!
# Verification of the legion archetype storage layer and world mutation protocol

This development is a shallow embedding, in Lean 4, of the core of the
`legion` entity-component-system engine (files `src/storage.rs` and
`src/world.rs`), together with proofs about the embedded operations.

Modelling conventions:

* Machine integers (`usize`) are modelled as `Nat`; where the source relies on
  wrap-around (`Wrapping<usize>` version counters) we reduce modulo `2^64`
  (`usizeSize`).
* Erased component and tag values are modelled as `Nat` (the claims under
  study only need the values' equality functions, and `TagMeta::of::<T>`'s
  `eq_fn` is value equality).
* Raw pointers into buffers are abstracted: each per-type component accessor
  carries the list of values of its slice, and a chunk's backing buffer
  pointer (`component_data : Option<NonNull<u8>>`) is modelled as
  `Option Unit` (`none` = null / unallocated).
* Operations that can panic or abort in the source (`unwrap`, index
  out-of-bounds, `assert!`, the usize-underflow in `Chunkset::defrag`) are
  modelled with `Option`: `none` is an abort.
* Loops are modelled by structural recursion; where the source loop is
  governed by a non-structural measure, an explicit fuel argument bounds the
  recursion and the accompanying lemmas show the chosen fuel is never
  exhausted on the states of interest.
* Sorted small-vector dictionaries (`Tags`, `Components`) are looked up by
  binary search in the source; on sorted duplicate-free keys this agrees
  with first-match association-list lookup, which is what we use.
-/

namespace Legion

/-- `usize::MAX + 1`; version counters and budgets live below this bound. -/
def usizeSize : Nat := 2 ^ 64

/-- `usize::MAX`, used by `World::defrag` when no budget is given. -/
def usizeMax : Nat := usizeSize - 1

/-- An entity handle: a dense index plus a generation counter
(`crate::entity::Entity`; the field layout is modelled from the spec's
"opaque stable identifier consisting of a dense index and a generation
counter"). -/
structure Entity where
  index : Nat
  gen : Nat
deriving DecidableEq

/-- Default entity used where the source reads through a checked index. -/
def edefault : Entity := ⟨0, 0⟩

/-- `EntityLocation`: (archetype index, chunk-set index, chunk index,
component slot index). -/
structure EntityLocation where
  archetype : Nat
  set : Nat
  chunk : Nat
  component : Nat
deriving DecidableEq

def locDefault : EntityLocation := ⟨0, 0, 0, 0⟩

/-- Component type ids, tag type ids, component values and tag values are all
erased to `Nat` in the embedding. -/
abbrev CompType := Nat

abbrev TagType := Nat

abbrev Val := Nat

abbrev TagVal := Nat

/-- First-match association list lookup (the source keeps these dictionaries
sorted and uses binary search; on sorted duplicate-free keys the two agree). -/
def assocGet {β : Type} : List (Nat × β) → Nat → Option β
  | [], _ => none
  | (k, v) :: rest, key => if k = key then some v else assocGet rest key

/-- Update the (first) entry with the given key, leaving other entries alone. -/
def assocUpdate {β : Type} : List (Nat × β) → Nat → (β → β) → List (Nat × β)
  | [], _, _ => []
  | (k, v) :: rest, key, f =>
    if k = key then (k, f v) :: rest else (k, v) :: assocUpdate rest key f

/-- Insertion into a key-sorted association list (`sort_by_key` in
`Tags::new` / `Components::new` produces key-sorted data; we model the sort
by insertion). -/
def assocInsertSorted {β : Type} (k : Nat) (v : β) : List (Nat × β) → List (Nat × β)
  | [] => [(k, v)]
  | (k0, v0) :: rest =>
    if k ≤ k0 then (k, v) :: (k0, v0) :: rest else (k0, v0) :: assocInsertSorted k v rest

/-- `data.sort_by_key(|(t, _)| *t)` modelled as insertion sort. -/
def assocSortByKey {β : Type} : List (Nat × β) → List (Nat × β)
  | [] => []
  | (k, v) :: rest => assocInsertSorted k v (assocSortByKey rest)

/-- `ComponentAccessor`: the per-component-type slice header of a chunk.
The raw `ptr`/`count` pair is modelled by `data` (the slice contents);
`element_size` and `drop_fn` act only on raw memory and are dropped from the
model. `version` is a `Wrapping<usize>`, `changed` a flag. -/
structure Accessor where
  data : List Val
  capacity : Nat
  version : Nat
  changed : Bool
deriving DecidableEq

/-- A fresh accessor as built by `ComponentStorageLayout::alloc_storage`:
count 0, version `Wrapping(0)`, changed `Wrapping(false)`. -/
def freshAccessor (capacity : Nat) : Accessor :=
  { data := [], capacity := capacity, version := 0, changed := false }

/-- `ComponentWriter::push_raw`: copies the values after the current count,
bumps the count, increments `version` by one (wrapping) and sets `changed`.
The `count + n <= capacity` debug assertion is the caller's burden. -/
def Accessor.pushRaw (a : Accessor) (vals : List Val) : Accessor :=
  { a with
    data := a.data ++ vals
    version := (a.version + 1) % usizeSize
    changed := true }

/-- `ComponentWriter::swap_remove`: optionally drops the removed element (a
no-op on the abstract state), copies the last element over slot `index` when
`index < count - 1`, and decrements the count.  It does **not** touch
`version` or `changed`. -/
def Accessor.swapRemoveW (a : Accessor) (index : Nat) (drop : Bool) : Accessor :=
  let count := a.data.length
  if index < count - 1 then
    { a with data := (a.data.set index (a.data.getLastD 0)).dropLast }
  else
    { a with data := a.data.dropLast }

/-- `ComponentAccessor::data_raw_mut`: acquiring mutable access increments
`version` (wrapping) and sets `changed`; the returned pointer is abstracted
away. -/
def Accessor.dataRawMut (a : Accessor) : Accessor :=
  { a with version := (a.version + 1) % usizeSize, changed := true }

/-- `ComponentStorage`: one chunk.  `comps` is the `Components` dictionary
(sorted by component type id), `component_data` the backing buffer pointer
(`none` = null, the chunk is unallocated). -/
structure ComponentStorage where
  capacity : Nat
  entities : List Entity
  comps : List (CompType × Accessor)
  component_data : Option Unit
deriving DecidableEq

def cdefault : ComponentStorage :=
  { capacity := 0, entities := [], comps := [], component_data := none }

namespace ComponentStorage

/-- `ComponentStorage::len`. -/
def len (c : ComponentStorage) : Nat := c.entities.length

/-- `ComponentStorage::is_full`. -/
def is_full (c : ComponentStorage) : Bool := decide (c.capacity ≤ c.len)

/-- `ComponentStorage::is_empty`. -/
def is_empty (c : ComponentStorage) : Bool := decide (c.entities.length = 0)

/-- `ComponentStorage::is_allocated`. -/
def is_allocated (c : ComponentStorage) : Bool := c.component_data.isSome

/-- `ComponentStorage::free`: deallocates the backing buffer (accessors keep
their — now dangling but empty — slices). -/
def free (c : ComponentStorage) : ComponentStorage :=
  { c with component_data := none }

/-- `ComponentStorage::allocate`: allocates the backing buffer and points the
accessors into it (a no-op on the abstract slice contents). -/
def allocate (c : ComponentStorage) : ComponentStorage :=
  { c with component_data := some () }

/-- `ComponentStorage::write`: lazily allocates, then hands out the entity
vector and accessors; we model the allocation effect. -/
def write (c : ComponentStorage) : ComponentStorage :=
  if c.is_allocated then c else c.allocate

/-- `Vec::swap_remove`: the last element is moved into slot `index` and the
length shrinks by one (for `index = len - 1` this is a plain pop). -/
def vecSwapRemove (l : List Entity) (index : Nat) : List Entity :=
  (l.set index (l.getLastD edefault)).dropLast

/-- `ComponentStorage::swap_remove`.  Returns `none` on the `Vec::swap_remove`
index panic; otherwise returns the entity that was swapped into the removed
slot (if any) and the updated chunk, freeing the buffer when the chunk
becomes empty. -/
def swap_remove (c : ComponentStorage) (index : Nat) (drop : Bool) :
    Option (Option Entity × ComponentStorage) :=
  if index < c.entities.length then
    let entities1 := vecSwapRemove c.entities index
    let c1 : ComponentStorage :=
      { c with
        entities := entities1
        comps := c.comps.map fun p => (p.1, p.2.swapRemoveW index drop) }
    if index < entities1.length then
      some (some (entities1.getD index edefault), c1)
    else
      some (none, if c1.is_empty then c1.free else c1)
  else
    none

/-- The component-transfer loop inside `ComponentStorage::move_entity`: for
every component type of the source, push the value at `index` into the target
if the target has the type, else drop it in place (no state change). -/
def movedComps : List (CompType × Accessor) → ComponentStorage → Nat → ComponentStorage
  | [], tgt, _ => tgt
  | (t, acc) :: rest, tgt, index =>
    let tgt1 :=
      match assocGet tgt.comps t with
      | some _ => { tgt with comps := assocUpdate tgt.comps t fun a => a.pushRaw [acc.data.getD index 0] }
      | none => tgt
    movedComps rest tgt1 index

/-- `ComponentStorage::move_entity`.  The two debug assertions
(`index < self.len()` and `!target.is_full()`) are modelled as `none`. -/
def move_entity (self target : ComponentStorage) (index : Nat) :
    Option (Option Entity × ComponentStorage × ComponentStorage) :=
  if index < self.len ∧ target.is_full = false then
    let target1 := if target.is_allocated then target else target.allocate
    let entity := self.entities.getD index edefault
    let target2 := { target1 with entities := target1.entities ++ [entity] }
    let target3 := movedComps self.comps target2 index
    match self.swap_remove index false with
    | some (sw, self1) => some (sw, self1, target3)
    | none => none
  else
    none

end ComponentStorage

/-! ## Chunk sets and defragmentation (`Chunkset` in `storage.rs`) -/

/-- A chunk-set is an ordered vector of chunks. -/
abbrev Chunkset := List ComponentStorage

/-- The length of the occupied prefix of a chunk-set, as computed by
`Chunkset::occupied`/`occupied_mut`: the maximal `len` such that
`chunks[len-1]` is non-empty. -/
def occupiedLen : Chunkset → Nat
  | [] => 0
  | c :: t =>
    let k := occupiedLen t
    if k = 0 then (if c.is_empty then 0 else 1) else k + 1

/-- A move notification, as passed to `on_moved` by `Chunkset::defrag`:
(entity, new chunk index, new component index). -/
abbrev Move := Entity × Nat × Nat

/-- The cursor advance `while first < last && slice[first].is_full()`,
with an explicit iteration bound (`last - first` always suffices). -/
def advanceFirstAux (cs : Chunkset) : Nat → Nat → Nat → Nat
  | 0, first, _ => first
  | fuel + 1, first, last =>
    if first < last ∧ (cs.getD first cdefault).is_full then
      advanceFirstAux cs fuel (first + 1) last
    else first

def advanceFirst (cs : Chunkset) (first last : Nat) : Nat :=
  advanceFirstAux cs (last - first) first last

/-- The cursor retreat `while last > first && slice[last].is_empty()`. -/
def retreatLastAux (cs : Chunkset) (first : Nat) : Nat → Nat → Nat
  | 0, last => last
  | fuel + 1, last =>
    if first < last ∧ (cs.getD last cdefault).is_empty then
      retreatLastAux cs first fuel (last - 1)
    else last

def retreatLast (cs : Chunkset) (first last : Nat) : Nat :=
  retreatLastAux cs first (last - first) last

/-- The nested loops of `Chunkset::defrag` over the occupied slice.
`phase = false` is the outer loop head (cursor adjustment), `phase = true`
the inner move loop.  Each inner iteration consumes one unit of budget, so
`2 * budget + 2` units of fuel always suffice (`defragGo_spec`); the
fuel-exhausted case returns `none` and is proved unreachable.  The source's
`assert!(swapped.is_none())` and the panics inside `move_entity` also map to
`none`. -/
def defragGo (cs : Chunkset) : Nat → Nat → Nat → Nat → Bool → Option (Bool × Chunkset × Nat × List Move)
  | 0, _, _, _, _ => none
  | fuel + 1, first, last, b, false =>
    let f := advanceFirst cs first last
    let l := retreatLast cs f last
    if f = l then some (true, cs, b, [])
    else defragGo cs fuel f l b true
  | fuel + 1, first, last, b, true =>
    if b = 0 then some (false, cs, 0, [])
    else
      let src := cs.getD last cdefault
      let tgt := cs.getD first cdefault
      match src.move_entity tgt (src.len - 1) with
      | none => none
      | some (sw, src1, tgt1) =>
        if sw.isSome then none
        else
          let cs1 := (cs.set last src1).set first tgt1
          let mv : Move := (tgt1.entities.getLastD edefault, first, tgt1.len - 1)
          let next :=
            if tgt1.is_full ∨ src1.is_empty then defragGo cs1 fuel first last (b - 1) false
            else defragGo cs1 fuel first last (b - 1) true
          next.map fun r => (r.1, r.2.1, r.2.2.1, mv :: r.2.2.2)

/-- `Chunkset::defrag`.  The mutable occupied slice is the `take` prefix; the
(empty) remainder of the chunk vector is untouched and re-appended.  On an
empty occupied slice the source computes `slice.len() - 1`, which underflows
and aborts: that is the `none` case. -/
def Chunkset.defrag (cs : Chunkset) (b : Nat) : Option (Bool × Chunkset × Nat × List Move) :=
  let n := occupiedLen cs
  let slice := cs.take n
  if slice.length = 0 then none
  else
    (defragGo slice (2 * b + 2) 0 (slice.length - 1) b false).map
      fun r => (r.1, r.2.1 ++ cs.drop n, r.2.2.1, r.2.2.2)

/-! ## Archetypes (`ArchetypeData` in `storage.rs`) -/

/-- `ComponentMeta`: we keep the size (used by the chunk capacity
computation); `align` and `drop_fn` act on raw memory only. -/
structure ComponentMeta where
  size : Nat
deriving DecidableEq

/-- `ArchetypeDescription`: the unordered component and tag type signature.
`TagMeta` is reduced to the type id (its `eq_fn` is value equality in the
model). -/
structure ArchetypeDescription where
  tags : List TagType
  components : List (CompType × ComponentMeta)
deriving DecidableEq

/-- `MAX_CHUNK_SIZE`. -/
def MAX_CHUNK_SIZE : Nat := 16 * 1024

/-- `size_of::<Entity>()`.  Modelled from the spec: an `Entity` is a dense
index and a generation counter (two 32-bit fields, 8 bytes); `entity.rs` is
not part of the sources under study. -/
def entitySize : Nat := 8

/-- `ArchetypeData` owns its description, the per-tag-type storages (indexed
by chunk-set ordinal), the chunk layout's entity capacity, and the chunk
sets.  `index` is the index component of its `ArchetypeId`. -/
structure ArchetypeData where
  index : Nat
  desc : ArchetypeDescription
  tags : List (TagType × List TagVal)
  capacity : Nat
  chunk_sets : List Chunkset
deriving DecidableEq

def adefault : ArchetypeData :=
  { index := 0, desc := ⟨[], []⟩, tags := [], capacity := 0, chunk_sets := [] }

/-- `ArchetypeData::new`: builds empty tag storages (sorted by tag type id)
and computes the chunk entity capacity
`max(1, MAX_CHUNK_SIZE / max(max_component_size, size_of::<Entity>()))`.
The byte offsets of the per-type slices within the chunk buffer
(`component_data_offsets`) only describe raw memory and are omitted from the
model. -/
def ArchetypeData.new (index : Nat) (desc : ArchetypeDescription) : ArchetypeData :=
  let max_component_size := (desc.components.map fun p => p.2.size).foldr Nat.max 0
  let entity_capacity := Nat.max 1 (MAX_CHUNK_SIZE / Nat.max max_component_size entitySize)
  { index := index
    desc := desc
    tags := assocSortByKey (desc.tags.map fun t => (t, []))
    capacity := entity_capacity
    chunk_sets := [] }

/-- A fresh chunk as produced by `ComponentStorageLayout::alloc_storage`:
empty, unallocated, with one fresh accessor per component type, sorted by
type id (`Components::new`). -/
def ComponentStorageLayout.alloc_storage (capacity : Nat) (desc : ArchetypeDescription) :
    ComponentStorage :=
  { capacity := capacity
    entities := []
    comps := assocSortByKey (desc.components.map fun p => (p.1, freshAccessor capacity))
    component_data := none }

/-- The tag-value comparison inside `ArchetypeData::merge`: every tag type of
`self` must compare equal (under `eq_fn`) between `self`'s storage at
`index` and `other`'s storage at `i`.  `other.tags.get(type_id).unwrap()` is
the `none` case. -/
def tagsMatchAt : List (TagType × List TagVal) → List (TagType × List TagVal) → Nat → Nat → Option Bool
  | [], _, _, _ => some true
  | (t, vals) :: rest, otherTags, index, i =>
    match assocGet otherTags t with
    | none => none
    | some ovals =>
      if vals.getD index 0 = ovals.getD i 0 then tagsMatchAt rest otherTags index i
      else some false

/-- The `for index in 0..self.chunk_sets.len()` search in
`ArchetypeData::merge`; returns the first matching `index`, scanning with an
explicit remaining count. -/
def findMatchingIndexAux (selfTags otherTags : List (TagType × List TagVal)) (i : Nat) :
    Nat → Nat → Option (Option Nat)
  | 0, _ => some none
  | r + 1, index =>
    match tagsMatchAt selfTags otherTags index i with
    | none => none
    | some true => some (some index)
    | some false => findMatchingIndexAux selfTags otherTags i r (index + 1)

def findMatchingIndex (selfTags otherTags : List (TagType × List TagVal))
    (numSets : Nat) (i : Nat) : Option (Option Nat) :=
  findMatchingIndexAux selfTags otherTags i numSets 0

/-- The drain loop of `ArchetypeData::merge` over `other`'s chunk sets.
When a matching chunk-set is found, the source executes
`set_match = Some(i)` — note `i` is the index of the drained set of `other`,
not the matching index of `self` — and then appends the drained chunks into
`self.chunk_sets[i]` (a `none` if `i` is out of bounds). -/
def mergeGo (otherTags : List (TagType × List TagVal)) :
    ArchetypeData → List Chunkset → Nat → Option ArchetypeData
  | self, [], _ => some self
  | self, set :: rest, i =>
    match findMatchingIndex self.tags otherTags self.chunk_sets.length i with
    | none => none
    | some (some _found) =>
      match self.chunk_sets.get? i with
      | none => none
      | some target =>
        mergeGo otherTags
          { self with chunk_sets := self.chunk_sets.set i (target ++ set) } rest (i + 1)
    | some none =>
      mergeGo otherTags { self with chunk_sets := self.chunk_sets ++ [set] } rest (i + 1)

/-- `ArchetypeData::merge`. -/
def ArchetypeData.merge (self other : ArchetypeData) : Option ArchetypeData :=
  mergeGo other.tags self other.chunk_sets 0

/-- `ArchetypeData::merge` as the spec describes it: chunks of a matching
drained chunk-set are appended "into that set", i.e. into the chunk-set of
`self` at the *matching* index. -/
def mergeSpecGo (otherTags : List (TagType × List TagVal)) :
    ArchetypeData → List Chunkset → Nat → Option ArchetypeData
  | self, [], _ => some self
  | self, set :: rest, i =>
    match findMatchingIndex self.tags otherTags self.chunk_sets.length i with
    | none => none
    | some (some found) =>
      match self.chunk_sets.get? found with
      | none => none
      | some target =>
        mergeSpecGo otherTags
          { self with chunk_sets := self.chunk_sets.set found (target ++ set) } rest (i + 1)
    | some none =>
      mergeSpecGo otherTags { self with chunk_sets := self.chunk_sets ++ [set] } rest (i + 1)

/-- The spec's reading of `Archetype::merge` (see `mergeSpecGo`). -/
def ArchetypeData.mergeSpec (self other : ArchetypeData) : Option ArchetypeData :=
  mergeSpecGo other.tags self other.chunk_sets 0

/-- `ArchetypeData::alloc_chunk_set`: appends an empty chunk set, then runs
the initializer over the tag storages; returns the new set's index.  The
initializer is represented by its effect on the tag dictionary. -/
def ArchetypeData.alloc_chunk_set (a : ArchetypeData)
    (initTags : List (TagType × List TagVal) → List (TagType × List TagVal)) :
    Nat × ArchetypeData :=
  let a1 := { a with chunk_sets := a.chunk_sets ++ [[]] }
  let a2 := { a1 with tags := initTags a1.tags }
  (a2.chunk_sets.length - 1, a2)

/-- The scan in `ArchetypeData::get_free_chunk` for the first non-full chunk. -/
def findFreeChunk : Chunkset → Nat → Option Nat
  | [], _ => none
  | c :: rest, i => if c.is_full = false then some i else findFreeChunk rest (i + 1)

/-- `ArchetypeData::get_free_chunk`: index of the first non-full chunk of the
set, allocating (an unallocated) chunk at the end if all are full.  Indexing
`self.chunk_sets[set_index]` out of bounds is a panic (`none`). -/
def ArchetypeData.get_free_chunk (a : ArchetypeData) (set_index : Nat) :
    Option (Nat × ArchetypeData) :=
  match a.chunk_sets.get? set_index with
  | none => none
  | some chunks =>
    match findFreeChunk chunks 0 with
    | some i => some (i, a)
    | none =>
      let chunk := ComponentStorageLayout.alloc_storage a.capacity a.desc
      some (chunks.length,
        { a with chunk_sets := a.chunk_sets.set set_index (chunks ++ [chunk]) })

/-- The per-chunk-set loop of `ArchetypeData::defrag`, threading the shared
budget and relocating the move notifications to full `EntityLocation`s;
stops early (returning `false`) as soon as a chunk set reports incomplete. -/
def archDefragGo (archIndex : Nat) :
    Nat → List Chunkset → Nat → Option (Bool × List Chunkset × Nat × List (Entity × EntityLocation))
  | _, [], b => some (true, [], b, [])
  | i, cs :: rest, b =>
    match Chunkset.defrag cs b with
    | none => none
    | some (false, cs1, b1, ms) =>
      some (false, cs1 :: rest, b1, ms.map fun m => (m.1, ⟨archIndex, i, m.2.1, m.2.2⟩))
    | some (true, cs1, b1, ms) =>
      match archDefragGo archIndex (i + 1) rest b1 with
      | none => none
      | some (c, rest1, b2, ms1) =>
        some (c, cs1 :: rest1, b2, (ms.map fun m => (m.1, ⟨archIndex, i, m.2.1, m.2.2⟩)) ++ ms1)

/-- `ArchetypeData::defrag`. -/
def ArchetypeData.defrag (a : ArchetypeData) (b : Nat) :
    Option (Bool × ArchetypeData × Nat × List (Entity × EntityLocation)) :=
  match archDefragGo a.index 0 a.chunk_sets b with
  | none => none
  | some (c, sets, b1, ms) => some (c, { a with chunk_sets := sets }, b1, ms)

/-! ## Tag sets and the delta tag layout filter (`world.rs`) -/

/-- `Tags::tag_set`: builds a `DynamicTagSet` by pushing, for every tag type,
the storage's **base** pointer — i.e. the tag value at ordinal 0 — regardless
of the `chunk` argument (which is only debug-asserted against the storage
length). -/
def Tags.tag_set (tags : List (TagType × List TagVal)) (chunk : Nat) : List (TagType × TagVal) :=
  tags.map fun p => (p.1, p.2.getD 0 0)

/-- `DynamicTagLayout`: the delta filter used by `find_chunk_with_delta` for
structural moves.  `archetype` and `chunk` are copied from the moving
entity's `EntityLocation` (`source_location.archetype()` and
`source_location.chunk()`). -/
structure DynamicTagLayout where
  archetype : Nat
  chunk : Nat
  existing : List TagType
  add : List (TagType × TagVal)
  remove : List TagType

/-- The retained-tag loop of
`Filter<ChunksetFilterData>::is_match for DynamicTagLayout`: for each
existing, non-removed tag type, the source archetype's tag storage is read at
offset `self.chunk * element_size` — the entity's **chunk** ordinal — and
compared with the candidate chunk-set's value at `chunk_index`. -/
def isMatchExisting (storage : List ArchetypeData) (l : DynamicTagLayout)
    (chunk_index : Nat) (arch : ArchetypeData) : List TagType → Option Bool
  | [] => some true
  | t :: rest =>
    if l.remove.contains t then isMatchExisting storage l chunk_index arch rest
    else
      match storage.get? l.archetype with
      | none => none
      | some srcArch =>
        match assocGet srcArch.tags t with
        | none => none
        | some srcVals =>
          match assocGet arch.tags t with
          | none => none
          | some candVals =>
            if srcVals.getD l.chunk 0 = candVals.getD chunk_index 0 then
              isMatchExisting storage l chunk_index arch rest
            else some false

/-- The added-tag loop of the same filter: each added value must equal the
candidate chunk-set's value at `chunk_index`. -/
def isMatchAdd (chunk_index : Nat) (arch : ArchetypeData) :
    List (TagType × TagVal) → Option Bool
  | [] => some true
  | (t, v) :: rest =>
    match assocGet arch.tags t with
    | none => none
    | some candVals =>
      if v = candVals.getD chunk_index 0 then isMatchAdd chunk_index arch rest
      else some false

/-- `DynamicTagLayout`'s chunk-set filter `is_match` (faithful: the retained
comparison reads the source tag storage at the entity's chunk ordinal). -/
def DynamicTagLayout.is_match (storage : List ArchetypeData) (l : DynamicTagLayout)
    (chunk_index : Nat) (arch : ArchetypeData) : Option Bool :=
  match isMatchExisting storage l chunk_index arch l.existing with
  | none => none
  | some false => some false
  | some true => isMatchAdd chunk_index arch l.add

/-- The same filter as the spec words it: "for every retained tag type, the
candidate chunk-set's value must equal the **source chunk-set's** value" —
the source tag storage is read at the source chunk-set's ordinal
(`sourceSet`), not at the entity's chunk ordinal. -/
def isMatchExistingSpec (storage : List ArchetypeData) (l : DynamicTagLayout)
    (sourceSet chunk_index : Nat) (arch : ArchetypeData) : List TagType → Option Bool
  | [] => some true
  | t :: rest =>
    if l.remove.contains t then isMatchExistingSpec storage l sourceSet chunk_index arch rest
    else
      match storage.get? l.archetype with
      | none => none
      | some srcArch =>
        match assocGet srcArch.tags t with
        | none => none
        | some srcVals =>
          match assocGet arch.tags t with
          | none => none
          | some candVals =>
            if srcVals.getD sourceSet 0 = candVals.getD chunk_index 0 then
              isMatchExistingSpec storage l sourceSet chunk_index arch rest
            else some false

/-- The delta tag filter as the spec describes it (see
`isMatchExistingSpec`). -/
def DynamicTagLayout.isMatchSpec (storage : List ArchetypeData) (l : DynamicTagLayout)
    (sourceSet chunk_index : Nat) (arch : ArchetypeData) : Option Bool :=
  match isMatchExistingSpec storage l sourceSet chunk_index arch l.existing with
  | none => none
  | some false => some false
  | some true => isMatchAdd chunk_index arch l.add

/-! ## Storage, entity allocator and `World` (`world.rs`) -/

/-- `Storage`: the archetype vector plus the parallel signature side tables. -/
structure Storage where
  component_types : List (List CompType)
  tag_types : List (List TagType)
  archetypes : List ArchetypeData
deriving DecidableEq

/-- `Storage::alloc_archetype`. -/
def Storage.alloc_archetype (st : Storage) (desc : ArchetypeDescription) : Nat × Storage :=
  let st1 : Storage :=
    { component_types := st.component_types ++ [desc.components.map fun p => p.1]
      tag_types := st.tag_types ++ [desc.tags]
      archetypes := st.archetypes ++ [ArchetypeData.new st.archetypes.length desc] }
  (st1.archetypes.length - 1, st1)

/-- Modelled from the spec: the entity allocator collaborator
(`crate::entity::EntityAllocator`, not among the sources under study).  It
maps each live entity index to a generation and its current location, hands
out fresh indices, and keeps the allocation buffer of the current insertion
batch.  Its contract: `delete_entity` returns the pre-deletion location
exactly when `is_alive` was true. -/
structure EntityAllocator where
  nextIndex : Nat
  entries : List (Nat × Nat × EntityLocation)
  buffer : List Entity
deriving DecidableEq

namespace EntityAllocator

/-- Modelled from the spec: creates a fresh entity, records it (at a default
location until `set_location` is called) and appends it to the allocation
buffer. -/
def create_entity (a : EntityAllocator) : Entity × EntityAllocator :=
  let e : Entity := ⟨a.nextIndex, 0⟩
  (e, { a with
        nextIndex := a.nextIndex + 1
        entries := a.entries ++ [(e.index, e.gen, locDefault)]
        buffer := a.buffer ++ [e] })

/-- Modelled from the spec: liveness uses both index and generation. -/
def is_alive (a : EntityAllocator) (e : Entity) : Bool :=
  a.entries.any fun x => x.1 = e.index ∧ x.2.1 = e.gen

/-- Modelled from the spec: location of the entry with the given index. -/
def get_location (a : EntityAllocator) (idx : Nat) : Option EntityLocation :=
  (a.entries.find? fun x => x.1 = idx).map fun x => x.2.2

/-- Modelled from the spec: updates the location recorded for an index. -/
def set_location (a : EntityAllocator) (idx : Nat) (loc : EntityLocation) : EntityAllocator :=
  { a with entries := a.entries.map fun x => if x.1 = idx then (x.1, x.2.1, loc) else x }

/-- Modelled from the spec: clears the slot and returns the pre-deletion
location exactly when the entity was alive. -/
def delete_entity (a : EntityAllocator) (e : Entity) :
    Option EntityLocation × EntityAllocator :=
  match a.entries.find? fun x => x.1 = e.index ∧ x.2.1 = e.gen with
  | none => (none, a)
  | some x =>
    (some x.2.2,
      { a with entries := a.entries.filter fun y => ¬(y.1 = e.index ∧ y.2.1 = e.gen) })

def clear_allocation_buffer (a : EntityAllocator) : EntityAllocator :=
  { a with buffer := [] }

end EntityAllocator

/-- `World` (the `WorldId` and universe bookkeeping are irrelevant to the
claims and omitted). -/
structure World where
  storage : Storage
  entity_allocator : EntityAllocator
  defrag_progress : Nat
deriving DecidableEq

/-- A fresh world, as produced by `Universe::create_world` /
`World::new`. -/
def freshWorld : World :=
  { storage := { component_types := [], tag_types := [], archetypes := [] }
    entity_allocator := { nextIndex := 0, entries := [], buffer := [] }
    defrag_progress := 0 }

namespace World

/-- `World::is_alive`. -/
def is_alive (w : World) (e : Entity) : Bool :=
  w.entity_allocator.is_alive e

/-- `World::get_component` (the data pointer chase of
`chunk.components(type)?.data_slice::<T>()` followed by
`slice.get(location.component())`). -/
def get_component (w : World) (e : Entity) (t : CompType) : Option Val :=
  if w.is_alive e = false then none
  else
    match w.entity_allocator.get_location e.index with
    | none => none
    | some loc =>
      match w.storage.archetypes.get? loc.archetype with
      | none => none
      | some arch =>
        match arch.chunk_sets.get? loc.set with
        | none => none
        | some cset =>
          match cset.get? loc.chunk with
          | none => none
          | some chunk =>
            match assocGet chunk.comps t with
            | none => none
            | some acc => acc.data.get? loc.component

/-- `World::get_tag`: reads the archetype's tag storage at the entity's
chunk-set ordinal. -/
def get_tag (w : World) (e : Entity) (t : TagType) : Option TagVal :=
  if w.is_alive e = false then none
  else
    match w.entity_allocator.get_location e.index with
    | none => none
    | some loc =>
      match w.storage.archetypes.get? loc.archetype with
      | none => none
      | some arch =>
        match assocGet arch.tags t with
        | none => none
        | some vals => vals.get? loc.set

/-- `World::delete`: clears the allocator slot, swap-removes the entity from
its chunk (dropping components) and redirects the swap victim's location.
The source's `unwrap`s on the location chase are the `none` cases. -/
def delete (w : World) (e : Entity) : Option (Bool × World) :=
  match w.entity_allocator.delete_entity e with
  | (none, _) => some (false, w)
  | (some loc, alloc1) =>
    match w.storage.archetypes.get? loc.archetype with
    | none => none
    | some arch =>
      match arch.chunk_sets.get? loc.set with
      | none => none
      | some cset =>
        match cset.get? loc.chunk with
        | none => none
        | some chunk =>
          match chunk.swap_remove loc.component true with
          | none => none
          | some (swapped, chunk1) =>
            let alloc2 :=
              match swapped with
              | some v => alloc1.set_location v.index loc
              | none => alloc1
            let arch1 := { arch with
              chunk_sets := arch.chunk_sets.set loc.set (cset.set loc.chunk chunk1) }
            some (true,
              { w with
                storage := { w.storage with
                  archetypes := w.storage.archetypes.set loc.archetype arch1 }
                entity_allocator := alloc2 })

/-- The body of the `while self.defrag_progress < archetypes.len()` loop of
`World::defrag`.  The loop advances `defrag_progress` cyclically and stops on
budget exhaustion or on coming back to `start`, so it runs at most
`archetypes.len() + 1` iterations; `fuel` bounds the recursion and the
fuel-exhausted branch (returning the current state) is unreachable for the
fuel chosen by `defragB`. -/
def defragLoop : World → Nat → Nat → Nat → Option World
  | w, _, _, 0 => some w
  | w, start, b, fuel + 1 =>
    let archs := w.storage.archetypes
    if w.defrag_progress < archs.length then
      match (archs.getD w.defrag_progress adefault).defrag b with
      | none => none
      | some (complete, arch1, b1, moves) =>
        let alloc1 := moves.foldl (fun a m => a.set_location m.1.index m.2) w.entity_allocator
        let w1 : World :=
          { w with
            storage := { w.storage with archetypes := archs.set w.defrag_progress arch1 }
            entity_allocator := alloc1
            defrag_progress :=
              if complete then (w.defrag_progress + 1) % archs.length else w.defrag_progress }
        if b1 = 0 ∨ w1.defrag_progress = start then some w1
        else defragLoop w1 start b1 fuel
    else some w

/-- `World::defrag` with an explicit budget value. -/
def defragB (w : World) (b : Nat) : Option World :=
  defragLoop w w.defrag_progress b (w.storage.archetypes.length + 1)

/-- `World::defrag`: `budget.unwrap_or(usize::MAX)`. -/
def defrag (w : World) (budget : Option Nat) : Option World :=
  w.defragB (budget.getD usizeMax)

end World

/-! ## `World::insert`, monomorphized

`World::insert` is generic over tag-set and component-source tuples; the
embedding below is its monomorphization to a single tag type and a single
component type (the `impl_data_tuple!(A => a)` instances of `world.rs`),
which suffices for building concrete reachable world states. -/

/-- The tuple layout archetype filter: `types.len() == item.len() &&
types.iter().all(|t| item.contains(t))` for the one-element type list. -/
def matchSig1 (sig : List Nat) (t : Nat) : Bool :=
  decide (sig.length = 1) && sig.contains t

/-- `World::find_archetype`: first index whose tag and component signatures
(in the side tables) both match, scanning at most `archetypes.len()`
entries. -/
def findArchetype1 (st : Storage) (tagTy : TagType) (compTy : CompType) : Option Nat :=
  (List.range st.archetypes.length).find? fun j =>
    matchSig1 (st.tag_types.getD j []) tagTy && matchSig1 (st.component_types.getD j []) compTy

/-- `World::create_archetype` for the `(tag,)`/`(comp,)` layouts:
`tailor_archetype` registers the tag then the component. -/
def createArchetype1 (st : Storage) (tagTy : TagType) (compTy : CompType)
    (compSize : Nat) : Nat × Storage :=
  st.alloc_archetype { tags := [tagTy], components := [(compTy, ⟨compSize⟩)] }

/-- `World::find_chunk_set` with the one-tag tuple filter: the first chunk-set
ordinal whose stored tag value equals the given value
(`Filter<ChunksetFilterData> for (A,)`).  The `.unwrap()` on the tag storage
is the outer `none`. -/
def findChunkSet1 (arch : ArchetypeData) (tagTy : TagType) (tagVal : TagVal) :
    Option (Option Nat) :=
  match assocGet arch.tags tagTy with
  | none => none
  | some vals => some (vals.findIdx? fun v => v = tagVal)

/-- `World::create_chunk_set` with the one-tag tuple set: `write_tags` pushes
the (cloned) value onto the tag type's storage; missing storage is an
`unwrap` panic, modelled by leaving the dictionary unchanged and failing the
subsequent length validation — we model it as `none` via a lookup check. -/
def createChunkSet1 (a : ArchetypeData) (tagTy : TagType) (tagVal : TagVal) :
    Option (Nat × ArchetypeData) :=
  match assocGet a.tags tagTy with
  | none => none
  | some _ =>
    some (a.alloc_chunk_set fun tags => assocUpdate tags tagTy fun vals => vals ++ [tagVal])

/-- The per-entity loop of `ComponentTupleSet::write`: while the chunk has
space and the iterator has elements, create an entity, push it onto the
chunk's entity vector and push its component through the type's writer. -/
def tupleWriteGo (compTy : CompType) :
    EntityAllocator → ComponentStorage → List Val → Nat → EntityAllocator × ComponentStorage × Nat × List Val
  | alloc, chunk, vals, 0 => (alloc, chunk, 0, vals)
  | alloc, chunk, [], _ => (alloc, chunk, 0, [])
  | alloc, chunk, v :: vs, space + 1 =>
    let (e, alloc1) := alloc.create_entity
    let chunk1 : ComponentStorage :=
      { chunk with
        entities := chunk.entities ++ [e]
        comps := assocUpdate chunk.comps compTy fun a => a.pushRaw [v] }
    let (alloc2, chunk2, count, rest) := tupleWriteGo compTy alloc1 chunk1 vs space
    (alloc2, chunk2, count + 1, rest)

/-- `ComponentTupleSet::write`: computes the free space, lazily allocates the
chunk (`chunk.write()`), checks the component writer exists (`unwrap`), and
writes as many entities as fit. -/
def tupleWrite (alloc : EntityAllocator) (chunk : ComponentStorage) (compTy : CompType)
    (vals : List Val) : Option (EntityAllocator × ComponentStorage × Nat × List Val) :=
  let space := chunk.capacity - chunk.len
  let chunk1 := chunk.write
  match assocGet chunk1.comps compTy with
  | none => none
  | some _ => some (tupleWriteGo compTy alloc chunk1 vals space)

/-- Records the locations of the entities just written
(`chunk.entities().iter().enumerate().skip(start)` in `World::insert`). -/
def recordLocations (alloc : EntityAllocator) (archIdx setIdx chunkIdx start : Nat)
    (entities : List Entity) : EntityAllocator :=
  (entities.enum.drop start).foldl
    (fun a p => a.set_location p.2.index ⟨archIdx, setIdx, chunkIdx, p.1⟩) alloc

/-- The `while !components.is_empty()` loop of `World::insert`.  Each pass
writes at least one entity (a free chunk always has space, since chunk
capacity is at least 1), so `vals.length` units of fuel suffice; a pass that
writes nothing (impossible) maps to `none`, as does any of the source's
index/unwrap panics. -/
def insertLoop (archIdx setIdx : Nat) (compTy : CompType) :
    World → List Val → Nat → Option World
  | w, [], _ => some w
  | _, _ :: _, 0 => none
  | w, vals, fuel + 1 =>
    match w.storage.archetypes.get? archIdx with
    | none => none
    | some arch =>
      match arch.get_free_chunk setIdx with
      | none => none
      | some (chunkIdx, arch1) =>
        match arch1.chunk_sets.get? setIdx with
        | none => none
        | some cset =>
          match cset.get? chunkIdx with
          | none => none
          | some chunk =>
            match tupleWrite w.entity_allocator chunk compTy vals with
            | none => none
            | some (alloc1, chunk1, written, rest) =>
              if written = 0 then none
              else
                let start := chunk1.len - written
                let alloc2 := recordLocations alloc1 archIdx setIdx chunkIdx start chunk1.entities
                let arch2 := { arch1 with
                  chunk_sets := arch1.chunk_sets.set setIdx (cset.set chunkIdx chunk1) }
                let w1 : World :=
                  { w with
                    storage := { w.storage with
                      archetypes := w.storage.archetypes.set archIdx arch2 }
                    entity_allocator := alloc2 }
                insertLoop archIdx setIdx compTy w1 rest fuel

/-- `World::insert` monomorphized to one tag type (with value `tagVal`) and
one component type (with per-entity values `vals`).  Returns the world and
the allocation buffer borrow. -/
def World.insert1 (w : World) (tagTy : TagType) (tagVal : TagVal) (compTy : CompType)
    (compSize : Nat) (vals : List Val) : Option (World × List Entity) :=
  let (archIdx, st1) :=
    match findArchetype1 w.storage tagTy compTy with
    | some j => (j, w.storage)
    | none => createArchetype1 w.storage tagTy compTy compSize
  let w1 : World := { w with storage := st1 }
  match w1.storage.archetypes.get? archIdx with
  | none => none
  | some arch =>
    match findChunkSet1 arch tagTy tagVal with
    | none => none
    | some found =>
      match
        (match found with
         | some s => some (s, w1)
         | none =>
           match createChunkSet1 arch tagTy tagVal with
           | none => none
           | some (s, arch1) =>
             some (s, { w1 with storage := { w1.storage with
               archetypes := w1.storage.archetypes.set archIdx arch1 } })) with
      | none => none
      | some (setIdx, w2) =>
        let w3 : World :=
          { w2 with entity_allocator := w2.entity_allocator.clear_allocation_buffer }
        match insertLoop archIdx setIdx compTy w3 vals vals.length with
        | none => none
        | some w4 => some (w4, w4.entity_allocator.buffer)

/-! ## Helper lemmas on lists -/

theorem getD_set_self {α : Type} (l : List α) (i : Nat) (a d : α) (h : i < l.length) :
    (l.set i a).getD i d = a := by
  simp [List.getD_eq_getElem?_getD, List.getElem?_set, h]

theorem getD_set_ne {α : Type} (l : List α) (i j : Nat) (a d : α) (h : j ≠ i) :
    (l.set i a).getD j d = l.getD j d := by
  simp [List.getD_eq_getElem?_getD, List.getElem?_set, Ne.symm h]

theorem getD_dropLast {α : Type} (l : List α) (i : Nat) (d : α) (h : i + 1 < l.length) :
    l.dropLast.getD i d = l.getD i d := by
  simp only [List.getD_eq_getElem?_getD, List.getElem?_dropLast]
  rw [if_pos (by omega)]

theorem get?_dropLast {α : Type} (l : List α) (i : Nat) (h : i + 1 < l.length) :
    l.dropLast.get? i = l.get? i := by
  rw [List.get?_eq_getElem?, List.get?_eq_getElem?, List.getElem?_dropLast, if_pos (by omega)]

theorem getLastD_eq_getD {α : Type} (l : List α) (d : α) :
    l.getLastD d = l.getD (l.length - 1) d := by
  simp [List.getLastD_eq_getLast?, List.getLast?_eq_getElem?, List.getD_eq_getElem?_getD]

theorem set_dropLast_of_ge {α : Type} (l : List α) (i : Nat) (x : α)
    (h : l.length - 1 ≤ i) : (l.set i x).dropLast = l.dropLast := by
  apply List.ext_getElem?
  intro j
  rw [List.getElem?_dropLast, List.getElem?_dropLast, List.length_set]
  by_cases hj : j < l.length - 1
  · rw [if_pos hj, if_pos hj, List.getElem?_set_ne (by omega)]
  · rw [if_neg hj, if_neg hj]

theorem assocGet_map {β : Type} (f : β → β) (l : List (Nat × β)) (k : Nat) :
    assocGet (l.map fun p => (p.1, f p.2)) k = (assocGet l k).map f := by
  induction l with
  | nil => rfl
  | cons p rest ih =>
    by_cases h : p.1 = k <;> simp [assocGet, h, ih]

theorem ite_free_entities (c : ComponentStorage) :
    (if c.is_empty = true then c.free else c).entities = c.entities := by
  split <;> rfl

theorem ite_free_comps (c : ComponentStorage) :
    (if c.is_empty = true then c.free else c).comps = c.comps := by
  split <;> rfl

/-! ## C5: chunk entity capacity -/

/-- **C5.** For every archetype description, the chunk entity capacity
computed at archetype construction equals
`max(1, 16384 / max(m, size_of(Entity)))` where `m` is the maximum component
size (0 when there are no components); consequently every chunk has capacity
at least 1, even when a single component's size exceeds 16384 bytes (shown
both in general and on a 20000-byte component). -/
theorem archetype_capacity_formula :
    (∀ index desc, (ArchetypeData.new index desc).capacity =
      Nat.max 1 (16384 / Nat.max ((desc.components.map fun p => p.2.size).foldr Nat.max 0) entitySize)) ∧
    (∀ index desc, 1 ≤ (ArchetypeData.new index desc).capacity) ∧
    (ArchetypeData.new 0 ⟨[], [(0, ⟨20000⟩)]⟩).capacity = 1 := by
  refine ⟨fun index desc => rfl, fun index desc => Nat.le_max_left _ _, by decide⟩

/-! ## C3: version counters -/

/-- **C3 (counterexample).** A `swap_remove` that actually shifts (index 0 of
a two-element slice) neither increments the accessor's version nor sets its
changed flag, contradicting the claim at this input. -/
theorem version_swap_remove_counterexample :
    ¬ (((⟨[1, 2], 2, 0, false⟩ : Accessor).swapRemoveW 0 true).version =
         ((⟨[1, 2], 2, 0, false⟩ : Accessor).version + 1) % usizeSize ∧
       ((⟨[1, 2], 2, 0, false⟩ : Accessor).swapRemoveW 0 true).changed = true) := by
  decide

/-- **C3 (amended).** Pushing components and acquiring mutable access each
strictly increment the accessor's version (modulo wraparound) and set its
changed flag; `swap_remove` — shifting or not — leaves both version and
changed flag unchanged. -/
theorem version_increments_on_push_and_mut_access :
    (∀ (a : Accessor) (vals : List Val),
       (a.pushRaw vals).version = (a.version + 1) % usizeSize ∧ (a.pushRaw vals).changed = true) ∧
    (∀ a : Accessor,
       a.dataRawMut.version = (a.version + 1) % usizeSize ∧ a.dataRawMut.changed = true) ∧
    (∀ (a : Accessor) (i : Nat) (drop : Bool),
       (a.swapRemoveW i drop).version = a.version ∧ (a.swapRemoveW i drop).changed = a.changed) := by
  refine ⟨fun a vals => ⟨rfl, rfl⟩, fun a => ⟨rfl, rfl⟩, fun a i drop => ?_⟩
  unfold Accessor.swapRemoveW
  by_cases h : i < a.data.length - 1 <;> simp [h]

/-! ## C7: `ComponentStorage::swap_remove` -/

/-- `ComponentWriter::swap_remove` always computes a swap-with-last on the
slice contents: copy the last element over slot `index` and pop (for
`index ≥ count - 1` the copy is the identity). -/
theorem swapRemoveW_eq (a : Accessor) (i : Nat) (drop : Bool) :
    a.swapRemoveW i drop = { a with data := (a.data.set i (a.data.getLastD 0)).dropLast } := by
  unfold Accessor.swapRemoveW
  by_cases h : i < a.data.length - 1
  · simp [h]
  · simp [h, set_dropLast_of_ge a.data i _ (by omega)]

/-- The full contract of `ComponentStorage::swap_remove` for an in-bounds
index, shared by the per-chunk and the whole-world delete analyses. -/
theorem swap_remove_aux (c : ComponentStorage) (i : Nat) (drop : Bool)
    (h : i < c.entities.length) :
    ∃ r c1, c.swap_remove i drop = some (r, c1) ∧
      c1.entities = (c.entities.set i (c.entities.getLastD edefault)).dropLast ∧
      c1.entities.length = c.entities.length - 1 ∧
      c1.comps = c.comps.map (fun p => (p.1, p.2.swapRemoveW i drop)) ∧
      (∀ t a, assocGet c.comps t = some a →
        assocGet c1.comps t =
          some { a with data := (a.data.set i (a.data.getLastD 0)).dropLast }) ∧
      (r = some (c.entities.getLastD edefault) ↔ i < c.entities.length - 1) ∧
      (∀ x, r = some x → x = c.entities.getLastD edefault) ∧
      (i = c.entities.length - 1 → r = none) ∧
      (i < c.entities.length - 1 → c1.entities.getD i edefault = c.entities.getLastD edefault) := by
  unfold ComponentStorage.swap_remove
  rw [if_pos h]
  have hlen : (ComponentStorage.vecSwapRemove c.entities i).length = c.entities.length - 1 := by
    unfold ComponentStorage.vecSwapRemove
    simp [List.length_set]
  have hcomps : ∀ t a, assocGet c.comps t = some a →
      assocGet (c.comps.map fun p => (p.1, p.2.swapRemoveW i drop)) t =
        some { a with data := (a.data.set i (a.data.getLastD 0)).dropLast } := by
    intro t a ha
    rw [assocGet_map (fun x => Accessor.swapRemoveW x i drop) c.comps t, ha]
    exact congrArg some (swapRemoveW_eq a i drop)
  by_cases h2 : i < (ComponentStorage.vecSwapRemove c.entities i).length
  · rw [if_pos h2]
    have hget : (ComponentStorage.vecSwapRemove c.entities i).getD i edefault =
        c.entities.getLastD edefault := by
      unfold ComponentStorage.vecSwapRemove
      rw [getD_dropLast _ _ _ (by rw [List.length_set]; omega),
        getD_set_self _ _ _ _ (by omega)]
    refine ⟨_, _, rfl, rfl, hlen, rfl, hcomps, ?_, ?_, ?_, fun _ => hget⟩
    · rw [hget]
      simp
      omega
    · intro x hx
      injection hx with hx2
      rw [← hx2]
      exact hget
    · intro hi
      omega
  · rw [if_neg h2]
    refine ⟨none, _, rfl, ?_, ?_, ?_, ?_, ?_, fun x hx => Option.noConfusion hx, fun _ => rfl,
      fun hi => absurd hi (by omega)⟩
    · rw [ite_free_entities]
      rfl
    · rw [ite_free_entities]
      exact hlen
    · rw [ite_free_comps]
    · intro t a ha
      rw [ite_free_comps]
      exact hcomps t a ha
    · constructor
      · intro hr
        exact absurd hr (by simp)
      · intro hi
        omega

/-- **C7.** For a chunk with `n` entities and `i < n`, `swap_remove(i, drop)`
removes the entity at `i` (the last entity is moved into slot `i` and the
list shrinks by one), performs the same swap-with-last on every component
slice, and returns `Some(e)` — `e` being the entity that previously occupied
the last slot and now occupies slot `i` — exactly when `i < n - 1`; removing
the last position (`i = n - 1`, including `n = 1`) returns `None`. -/
theorem swap_remove_contract (c : ComponentStorage) (i : Nat) (drop : Bool)
    (h : i < c.entities.length) :
    ∃ r c1, c.swap_remove i drop = some (r, c1) ∧
      c1.entities = (c.entities.set i (c.entities.getLastD edefault)).dropLast ∧
      c1.entities.length = c.entities.length - 1 ∧
      (∀ t a, assocGet c.comps t = some a →
        assocGet c1.comps t =
          some { a with data := (a.data.set i (a.data.getLastD 0)).dropLast }) ∧
      (r = some (c.entities.getLastD edefault) ↔ i < c.entities.length - 1) ∧
      (i = c.entities.length - 1 → r = none) ∧
      (i < c.entities.length - 1 → c1.entities.getD i edefault = c.entities.getLastD edefault) := by
  obtain ⟨r, c1, h1, h2, h3, _, h5, h6, _, h8, h9⟩ := swap_remove_aux c i drop h
  exact ⟨r, c1, h1, h2, h3, h5, h6, h8, h9⟩

/-- Witness for C7 at a concrete chunk: two entities, removing index 0 swaps
entity 2 into slot 0 and returns it. -/
theorem swap_remove_contract_witness :
    (0 < ([⟨1, 0⟩, ⟨2, 0⟩] : List Entity).length) ∧
    ∃ r c1,
      (ComponentStorage.swap_remove
        ⟨4, [⟨1, 0⟩, ⟨2, 0⟩], [(1, ⟨[10, 20], 4, 0, false⟩)], some ()⟩ 0 true) = some (r, c1) ∧
      c1.entities = (([⟨1, 0⟩, ⟨2, 0⟩] : List Entity).set 0
        (([⟨1, 0⟩, ⟨2, 0⟩] : List Entity).getLastD edefault)).dropLast ∧
      c1.entities.length = ([⟨1, 0⟩, ⟨2, 0⟩] : List Entity).length - 1 ∧
      (∀ t a, assocGet [(1, (⟨[10, 20], 4, 0, false⟩ : Accessor))] t = some a →
        assocGet c1.comps t =
          some { a with data := (a.data.set 0 (a.data.getLastD 0)).dropLast }) ∧
      (r = some (([⟨1, 0⟩, ⟨2, 0⟩] : List Entity).getLastD edefault) ↔
        0 < ([⟨1, 0⟩, ⟨2, 0⟩] : List Entity).length - 1) ∧
      (0 = ([⟨1, 0⟩, ⟨2, 0⟩] : List Entity).length - 1 → r = none) ∧
      (0 < ([⟨1, 0⟩, ⟨2, 0⟩] : List Entity).length - 1 →
        c1.entities.getD 0 edefault = ([⟨1, 0⟩, ⟨2, 0⟩] : List Entity).getLastD edefault) :=
  ⟨by decide,
    swap_remove_contract ⟨4, [⟨1, 0⟩, ⟨2, 0⟩], [(1, ⟨[10, 20], 4, 0, false⟩)], some ()⟩ 0 true
      (by decide)⟩

/-! ## C8: lazy allocation -/

/-- **C8.** A chunk is allocated exactly when its backing buffer pointer is
non-null; a freshly created chunk (from `alloc_storage`) is unallocated until
`write()` is called; and a `swap_remove` on a one-entity chunk empties it,
returns no swap victim, deallocates the buffer and reports
`is_allocated() == false`. -/
theorem chunk_allocation_lifecycle :
    (∀ c : ComponentStorage, c.is_allocated = true ↔ c.component_data ≠ none) ∧
    (∀ capacity desc,
      (ComponentStorageLayout.alloc_storage capacity desc).is_allocated = false) ∧
    (∀ c : ComponentStorage, c.write.is_allocated = true) ∧
    (∀ (c : ComponentStorage) (i : Nat) (drop : Bool) (r : Option Entity)
       (c1 : ComponentStorage),
       c.entities.length = 1 → c.swap_remove i drop = some (r, c1) →
       r = none ∧ c1.is_allocated = false) := by
  refine ⟨fun c => ?_, fun capacity desc => rfl, fun c => ?_, ?_⟩
  · cases hc : c.component_data <;> simp [ComponentStorage.is_allocated, hc]
  · unfold ComponentStorage.write
    by_cases h : c.is_allocated = true
    · rw [if_pos h]; exact h
    · rw [if_neg h]; rfl
  · intro c i drop r c1 hn hsw
    unfold ComponentStorage.swap_remove at hsw
    by_cases hi : i < c.entities.length
    · rw [if_pos hi] at hsw
      have hi0 : i = 0 := by omega
      subst hi0
      have hlen : (ComponentStorage.vecSwapRemove c.entities 0).length = 0 := by
        unfold ComponentStorage.vecSwapRemove
        simp [List.length_set]
        omega
      rw [if_neg (by omega)] at hsw
      have hempty : (ComponentStorage.is_empty
          { c with
            entities := ComponentStorage.vecSwapRemove c.entities 0
            comps := c.comps.map fun p => (p.1, p.2.swapRemoveW 0 drop) }) = true := by
        simp [ComponentStorage.is_empty, hlen]
      rw [hempty] at hsw
      simp only [if_pos] at hsw
      cases hsw
      exact ⟨rfl, rfl⟩
    · rw [if_neg hi] at hsw
      cases hsw

/-- Witness for C8's hypothesis-bearing part at a concrete one-entity chunk. -/
theorem chunk_allocation_lifecycle_witness :
    (([⟨1, 0⟩] : List Entity).length = 1) ∧
    ((none : Option Entity) = none ∧
      (ComponentStorage.is_allocated ⟨4, [], [(1, ⟨[], 4, 0, false⟩)], none⟩) = false) :=
  ⟨by decide,
    chunk_allocation_lifecycle.2.2.2
      ⟨4, [⟨1, 0⟩], [(1, ⟨[10], 4, 0, false⟩)], some ()⟩ 0 true none
      ⟨4, [], [(1, ⟨[], 4, 0, false⟩)], none⟩ (by decide) (by decide)⟩

/-! ## C1: the delta tag layout filter

A concrete structural-move situation.  The source archetype `c1Source` has
two chunk-sets, with tag values 10 resp. 20 for tag type 0 and 5 resp. 6 for
tag type 1.  The moving entity lives in chunk-set 1, chunk 0, and tag type 1
is being removed, so tag type 0 is retained and its source chunk-set value is
20 (ordinal 1 of the storage).  The candidate target archetype `c1Target`
(signature `{0}`) has two chunk-sets with tag-0 values 10 and 20. -/

def c1Source : ArchetypeData :=
  { index := 0, desc := ⟨[0, 1], []⟩, tags := [(0, [10, 20]), (1, [5, 6])]
    capacity := 1, chunk_sets := [[], []] }

def c1Target : ArchetypeData :=
  { index := 1, desc := ⟨[0], []⟩, tags := [(0, [10, 20])]
    capacity := 1, chunk_sets := [[], []] }

def c1Layout : DynamicTagLayout :=
  { archetype := 0, chunk := 0, existing := [0, 1], add := [], remove := [1] }

/-- **C1 (evaluation at the failing input).** `DynamicTagLayout::is_match`
compares the retained tag against the source tag storage at the entity's
*chunk* ordinal (0, value 10), not its chunk-set ordinal (1, value 20): it
accepts candidate chunk-set 0 (value 10) and rejects the value-correct
candidate 1, exactly the opposite of the spec's filter; and
`Tags::tag_set`, used to initialize a freshly created chunk-set on the slow
path, pushes the storages' base values (ordinal 0: 10 and 5) rather than the
source chunk-set's values (20 and 6). -/
theorem delta_tag_filter_uses_chunk_ordinal :
    DynamicTagLayout.is_match [c1Source] c1Layout 0 c1Target = some true ∧
    DynamicTagLayout.is_match [c1Source] c1Layout 1 c1Target = some false ∧
    DynamicTagLayout.isMatchSpec [c1Source] c1Layout 1 0 c1Target = some false ∧
    DynamicTagLayout.isMatchSpec [c1Source] c1Layout 1 1 c1Target = some true ∧
    Tags.tag_set c1Source.tags 1 = [(0, 10), (1, 5)] ∧
    [(0, 10), (1, 5)] ≠ [(0, (20 : TagVal)), (1, 6)] := by
  decide

/-! ## C2: `ArchetypeData::merge` -/

/-- A marker chunk distinguishable by its single entity's index. -/
def c2Chunk (n : Nat) : ComponentStorage :=
  { capacity := 4, entities := [⟨n, 0⟩], comps := [], component_data := none }

def c2Self : ArchetypeData :=
  { index := 0, desc := ⟨[0], []⟩, tags := [(0, [10, 20])]
    capacity := 1, chunk_sets := [[c2Chunk 1], [c2Chunk 2]] }

def c2Other : ArchetypeData :=
  { index := 0, desc := ⟨[0], []⟩, tags := [(0, [20])]
    capacity := 1, chunk_sets := [[c2Chunk 3]] }

/-- **C2 (evaluation at the failing input).** Merging an archetype whose
only chunk-set has tag value 20 (drain index `i = 0`) into an archetype whose
chunk-sets have tag values 10 and 20: the matching chunk-set of `self` is
index 1, but `set_match = Some(i)` stores the drain index 0, so the incoming
chunk is appended into chunk-set 0 (tag value 10).  The spec's merge appends
it into the matching chunk-set 1. -/
theorem merge_appends_into_drain_index :
    (c2Self.merge c2Other).map (fun a => a.chunk_sets) =
      some [[c2Chunk 1, c2Chunk 3], [c2Chunk 2]] ∧
    (c2Self.mergeSpec c2Other).map (fun a => a.chunk_sets) =
      some [[c2Chunk 1], [c2Chunk 2, c2Chunk 3]] := by
  decide

/-! ## C4 (counterexample): the empty-chunk-set defrag abort is reachable
through the public API -/

/-- **C4 (counterexample).** Insert one entity into a fresh world, delete it
(`delete` returns `true`), then call `defrag`: the surviving chunk-set's
chunks are all empty, `Chunkset::defrag` computes `slice.len() - 1` on an
empty occupied slice, and the world aborts (`none`) — the fatal
empty-chunk-set defrag error is observable through the public API alone. -/
theorem defrag_abort_reachable :
    (World.insert1 freshWorld 0 5 1 8 [7]).isSome = true ∧
    ((World.insert1 freshWorld 0 5 1 8 [7]).bind fun p => p.1.delete ⟨0, 0⟩).map
      (fun q => q.1) = some true ∧
    (((World.insert1 freshWorld 0 5 1 8 [7]).bind fun p => p.1.delete ⟨0, 0⟩).bind
      fun q => q.2.defrag (some 3)) = none := by
  decide

/-! ## C6: the chunk-set defragmentation contract -/

/-- A chunk-set is defragmented at cursor `p`: every chunk before `p` is
full and every chunk after `p` is empty. -/
def isDefragged (cs : Chunkset) : Prop :=
  ∃ p, p < cs.length ∧
    (∀ j, j < p → (cs.getD j cdefault).is_full = true) ∧
    (∀ j, p < j → j < cs.length → (cs.getD j cdefault).is_empty = true)

/-- A visibly-unfinished chunk-set: a non-full chunk strictly before a
non-empty one. -/
def Unfinished (cs : Chunkset) : Prop :=
  ∃ u v, u < v ∧ v < cs.length ∧
    (cs.getD u cdefault).is_full = false ∧ (cs.getD v cdefault).is_empty = false

theorem unfinished_not_defragged {cs : Chunkset} (h : Unfinished cs) : ¬ isDefragged cs := by
  obtain ⟨u, v, huv, hv, hu_nf, hv_ne⟩ := h
  rintro ⟨p, hp, hfull, hempty⟩
  rcases Nat.lt_or_ge u p with h1 | h1
  · rw [hfull u h1] at hu_nf
    cases hu_nf
  · rw [hempty v (by omega) hv] at hv_ne
    cases hv_ne

/-- The entity-weighted displacement potential `Σ j * len(chunk j)`; every
defrag move strictly decreases it. -/
def phiAux : Chunkset → Nat → Nat
  | [], _ => 0
  | c :: t, i => i * c.len + phiAux t (i + 1)

def phi (cs : Chunkset) : Nat := phiAux cs 0

/-- Total number of entities of a chunk-set. -/
def totalLen : Chunkset → Nat
  | [] => 0
  | c :: t => c.len + totalLen t

theorem is_empty_iff (c : ComponentStorage) : c.is_empty = true ↔ c.len = 0 := by
  simp [ComponentStorage.is_empty, ComponentStorage.len]

theorem is_empty_false_iff (c : ComponentStorage) : c.is_empty = false ↔ 0 < c.len := by
  unfold ComponentStorage.is_empty ComponentStorage.len
  rw [decide_eq_false_iff_not]
  omega

theorem is_full_false_iff (c : ComponentStorage) : c.is_full = false ↔ c.len < c.capacity := by
  unfold ComponentStorage.is_full
  rw [decide_eq_false_iff_not]
  omega

theorem phiAux_set (c : ComponentStorage) :
    ∀ (cs : Chunkset) (k i : Nat), k < cs.length →
      phiAux (cs.set k c) i + (i + k) * (cs.getD k cdefault).len =
        phiAux cs i + (i + k) * c.len := by
  intro cs
  induction cs with
  | nil => intro k i h; simp at h
  | cons c0 t ih =>
    intro k i h
    cases k with
    | zero =>
      simp only [List.set, phiAux, List.getD_cons_zero, Nat.add_zero]
      ring
    | succ k =>
      simp only [List.set, phiAux, List.getD_cons_succ]
      have := ih k (i + 1) (by simpa using Nat.lt_of_succ_lt_succ h)
      have harith : i + 1 + k = i + (k + 1) := by omega
      rw [harith] at this
      omega

theorem totalLen_set (c : ComponentStorage) :
    ∀ (cs : Chunkset) (k : Nat), k < cs.length →
      totalLen (cs.set k c) + (cs.getD k cdefault).len = totalLen cs + c.len := by
  intro cs
  induction cs with
  | nil => intro k h; simp at h
  | cons c0 t ih =>
    intro k h
    cases k with
    | zero =>
      simp only [List.set, totalLen, List.getD_cons_zero]
      omega
    | succ k =>
      simp only [List.set, totalLen, List.getD_cons_succ]
      have := ih k (by simpa using Nat.lt_of_succ_lt_succ h)
      omega

theorem phiAux_append (s t : Chunkset) :
    ∀ i, phiAux (s ++ t) i = phiAux s i + phiAux t (i + s.length) := by
  induction s with
  | nil => intro i; simp [phiAux]
  | cons c s ih =>
    intro i
    show i * c.len + phiAux (s ++ t) (i + 1) =
      i * c.len + phiAux s (i + 1) + phiAux t (i + (s.length + 1))
    rw [ih (i + 1)]
    have : i + 1 + s.length = i + (s.length + 1) := by omega
    rw [this]
    omega

theorem phiAux_zero_of_empty (t : Chunkset) (h : ∀ c ∈ t, c.is_empty = true) :
    ∀ i, phiAux t i = 0 := by
  induction t with
  | nil => intro i; rfl
  | cons c t ih =>
    intro i
    have hc : c.len = 0 := (is_empty_iff c).mp (h c (by simp))
    simp [phiAux, hc, ih fun c hm => h c (by simp [hm])]

theorem totalLen_append (s t : Chunkset) : totalLen (s ++ t) = totalLen s + totalLen t := by
  induction s with
  | nil => simp [totalLen]
  | cons c s ih => simp [totalLen, ih]; omega

theorem totalLen_pos (cs : Chunkset) (j : Nat) (hj : j < cs.length)
    (h : (cs.getD j cdefault).is_empty = false) : 0 < totalLen cs := by
  induction cs generalizing j with
  | nil => simp at hj
  | cons c t ih =>
    cases j with
    | zero =>
      have := (is_empty_false_iff c).mp (by simpa [List.getD] using h)
      simp [totalLen]
      omega
    | succ j =>
      have := ih j (by simpa using Nat.lt_of_succ_lt_succ hj)
        (by simpa [List.getD] using h)
      simp [totalLen]
      omega

theorem occupiedLen_le (cs : Chunkset) : occupiedLen cs ≤ cs.length := by
  induction cs with
  | nil => simp [occupiedLen]
  | cons c t ih =>
    simp only [occupiedLen, List.length_cons]
    split
    · split <;> omega
    · omega

theorem occupiedLen_last (cs : Chunkset) (h : 0 < occupiedLen cs) :
    (cs.getD (occupiedLen cs - 1) cdefault).is_empty = false := by
  induction cs with
  | nil => simp [occupiedLen] at h
  | cons c t ih =>
    simp only [occupiedLen] at h ⊢
    by_cases hk : occupiedLen t = 0
    · rw [if_pos hk] at h ⊢
      by_cases hc : c.is_empty = true
      · rw [if_pos hc] at h; omega
      · rw [if_neg hc]
        simpa [List.getD] using Bool.eq_false_iff.mpr hc
    · rw [if_neg hk] at h ⊢
      obtain ⟨m, hm⟩ : ∃ m, occupiedLen t = m + 1 := ⟨occupiedLen t - 1, by omega⟩
      have := ih (by omega)
      rw [hm] at this ⊢
      simpa [List.getD_cons_succ] using this

theorem occupiedLen_suffix (cs : Chunkset) (j : Nat) (h1 : occupiedLen cs ≤ j)
    (h2 : j < cs.length) : (cs.getD j cdefault).is_empty = true := by
  induction cs generalizing j with
  | nil => simp at h2
  | cons c t ih =>
    simp only [occupiedLen] at h1
    by_cases hk : occupiedLen t = 0
    · rw [if_pos hk] at h1
      cases j with
      | zero =>
        by_cases hc : c.is_empty = true
        · simpa [List.getD] using hc
        · rw [if_neg hc] at h1; omega
      | succ j =>
        have := ih j (by omega) (by simpa using Nat.lt_of_succ_lt_succ h2)
        simpa [List.getD] using this
    · rw [if_neg hk] at h1
      cases j with
      | zero => omega
      | succ j =>
        have := ih j (by omega) (by simpa using Nat.lt_of_succ_lt_succ h2)
        simpa [List.getD] using this

theorem occupiedLen_pos_of_total (cs : Chunkset) (h : 0 < totalLen cs) :
    0 < occupiedLen cs := by
  by_contra hocc
  have hocc0 : occupiedLen cs = 0 := by omega
  have hall : ∀ j, j < cs.length → (cs.getD j cdefault).is_empty = true := by
    intro j hj
    exact occupiedLen_suffix cs j (by omega) hj
  have : totalLen cs = 0 := by
    clear h hocc hocc0
    induction cs with
    | nil => rfl
    | cons c t ih =>
      have hc : c.len = 0 := (is_empty_iff c).mp (by simpa [List.getD] using hall 0 (by simp))
      simp only [totalLen, hc, Nat.zero_add]
      exact ih fun j hj => by simpa [List.getD] using hall (j + 1) (by simpa using Nat.succ_lt_succ hj)
  omega

theorem totalLen_pos_of_occupied (cs : Chunkset) (h : 0 < occupiedLen cs) :
    0 < totalLen cs := by
  have hlt : occupiedLen cs - 1 < cs.length := by
    have := occupiedLen_le cs
    omega
  exact totalLen_pos cs (occupiedLen cs - 1) hlt (occupiedLen_last cs h)

theorem advanceFirstAux_spec (cs : Chunkset) :
    ∀ (fuel first last : Nat), last - first ≤ fuel → first ≤ last →
      first ≤ advanceFirstAux cs fuel first last ∧
      advanceFirstAux cs fuel first last ≤ last ∧
      (∀ j, first ≤ j → j < advanceFirstAux cs fuel first last →
        (cs.getD j cdefault).is_full = true) ∧
      (advanceFirstAux cs fuel first last = last ∨
        (cs.getD (advanceFirstAux cs fuel first last) cdefault).is_full = false) := by
  intro fuel
  induction fuel with
  | zero =>
    intro first last hfuel hle
    have : first = last := by omega
    subst this
    unfold advanceFirstAux
    exact ⟨Nat.le_refl _, Nat.le_refl _, fun j h1 h2 => by omega, Or.inl rfl⟩
  | succ fuel ih =>
    intro first last hfuel hle
    unfold advanceFirstAux
    by_cases hc : first < last ∧ (cs.getD first cdefault).is_full = true
    · rw [if_pos hc]
      obtain ⟨h1, h2, h3, h4⟩ := ih (first + 1) last (by omega) (by omega)
      refine ⟨by omega, h2, ?_, h4⟩
      intro j hj1 hj2
      rcases Nat.eq_or_lt_of_le hj1 with he | hlt
      · rw [← he]; exact hc.2
      · exact h3 j hlt hj2
    · rw [if_neg hc]
      refine ⟨Nat.le_refl _, hle, fun j h1 h2 => by omega, ?_⟩
      rcases Nat.eq_or_lt_of_le hle with he | hlt
      · exact Or.inl he
      · right
        cases hfull : (cs.getD first cdefault).is_full
        · rfl
        · exact absurd ⟨hlt, hfull⟩ hc

theorem advanceFirst_spec (cs : Chunkset) (first last : Nat) (hle : first ≤ last) :
    first ≤ advanceFirst cs first last ∧
    advanceFirst cs first last ≤ last ∧
    (∀ j, first ≤ j → j < advanceFirst cs first last → (cs.getD j cdefault).is_full = true) ∧
    (advanceFirst cs first last = last ∨
      (cs.getD (advanceFirst cs first last) cdefault).is_full = false) :=
  advanceFirstAux_spec cs (last - first) first last (Nat.le_refl _) hle

theorem retreatLastAux_spec (cs : Chunkset) (first : Nat) :
    ∀ (fuel last : Nat), last - first ≤ fuel → first ≤ last →
      first ≤ retreatLastAux cs first fuel last ∧
      retreatLastAux cs first fuel last ≤ last ∧
      (∀ j, retreatLastAux cs first fuel last < j → j ≤ last →
        (cs.getD j cdefault).is_empty = true) ∧
      (retreatLastAux cs first fuel last = first ∨
        (cs.getD (retreatLastAux cs first fuel last) cdefault).is_empty = false) := by
  intro fuel
  induction fuel with
  | zero =>
    intro last hfuel hle
    have : first = last := by omega
    subst this
    unfold retreatLastAux
    exact ⟨Nat.le_refl _, Nat.le_refl _, fun j h1 h2 => by omega, Or.inl rfl⟩
  | succ fuel ih =>
    intro last hfuel hle
    unfold retreatLastAux
    by_cases hc : first < last ∧ (cs.getD last cdefault).is_empty = true
    · rw [if_pos hc]
      obtain ⟨h1, h2, h3, h4⟩ := ih (last - 1) (by omega) (by omega)
      refine ⟨h1, by omega, ?_, h4⟩
      intro j hj1 hj2
      rcases Nat.eq_or_lt_of_le hj2 with he | hlt
      · rw [he]; exact hc.2
      · exact h3 j hj1 (by omega)
    · rw [if_neg hc]
      refine ⟨hle, Nat.le_refl _, fun j h1 h2 => by omega, ?_⟩
      rcases Nat.eq_or_lt_of_le hle with he | hlt
      · exact Or.inl he.symm
      · right
        cases hempty : (cs.getD last cdefault).is_empty
        · rfl
        · exact absurd ⟨hlt, hempty⟩ hc

theorem retreatLast_spec (cs : Chunkset) (first last : Nat) (hle : first ≤ last) :
    first ≤ retreatLast cs first last ∧
    retreatLast cs first last ≤ last ∧
    (∀ j, retreatLast cs first last < j → j ≤ last → (cs.getD j cdefault).is_empty = true) ∧
    (retreatLast cs first last = first ∨
      (cs.getD (retreatLast cs first last) cdefault).is_empty = false) :=
  retreatLastAux_spec cs first (last - first) last (Nat.le_refl _) hle

theorem len_def (c : ComponentStorage) : c.len = c.entities.length := rfl

theorem movedComps_entities (tgt : ComponentStorage) (index : Nat) :
    ∀ l, (ComponentStorage.movedComps l tgt index).entities = tgt.entities := by
  suffices h : ∀ l (t : ComponentStorage),
      (ComponentStorage.movedComps l t index).entities = t.entities by
    intro l
    exact h l tgt
  intro l
  induction l with
  | nil => intro t; rfl
  | cons p rest ih =>
    intro t
    unfold ComponentStorage.movedComps
    cases assocGet t.comps p.1 <;> simp [ih]

/-- The move performed by the defrag inner loop: moving the last entity of a
non-empty source into a non-full target always succeeds, produces no swap
victim, and shifts one entity of weight from source to target. -/
theorem move_entity_last (src tgt : ComponentStorage)
    (hs : src.is_empty = false) (ht : tgt.is_full = false) :
    ∃ src1 tgt1, src.move_entity tgt (src.len - 1) = some (none, src1, tgt1) ∧
      src1.len = src.len - 1 ∧ tgt1.len = tgt.len + 1 := by
  have hpos : 0 < src.len := (is_empty_false_iff src).mp hs
  unfold ComponentStorage.move_entity
  rw [if_pos ⟨by omega, ht⟩]
  set target1 := if tgt.is_allocated then tgt else tgt.allocate with htarget1
  have htarget1e : target1.entities = tgt.entities := by
    rw [htarget1]; split <;> rfl
  have hlen1 : (ComponentStorage.vecSwapRemove src.entities (src.len - 1)).length =
      src.entities.length - 1 := by
    unfold ComponentStorage.vecSwapRemove
    simp [List.length_set]
  unfold ComponentStorage.swap_remove
  rw [if_pos (show src.len - 1 < src.entities.length from by
    rw [len_def] at hpos ⊢; omega)]
  rw [if_neg (show ¬(src.len - 1 < (ComponentStorage.vecSwapRemove src.entities
      (src.len - 1)).length) from by
    rw [hlen1, len_def] at *; omega)]
  refine ⟨_, _, rfl, ?_, ?_⟩
  · rw [len_def, ite_free_entities]
    simp only
    rw [hlen1, len_def]
  · rw [len_def, movedComps_entities]
    simp [htarget1e, len_def]

/-- Invariant at the head of the outer defrag loop: the cursors are ordered
and in bounds, everything before `first` is full, everything after `last` is
empty. -/
def PreCommon (cs : Chunkset) (first last : Nat) : Prop :=
  last < cs.length ∧
  (∀ j, j < first → (cs.getD j cdefault).is_full = true) ∧
  (∀ j, last < j → j < cs.length → (cs.getD j cdefault).is_empty = true)

def PreOuter (cs : Chunkset) (first last : Nat) : Prop :=
  PreCommon cs first last ∧ first ≤ last

/-- Invariant inside the inner move loop: additionally the target is not full
and the source is not empty. -/
def PreInner (cs : Chunkset) (first last : Nat) : Prop :=
  PreCommon cs first last ∧ first < last ∧
  (cs.getD first cdefault).is_full = false ∧ (cs.getD last cdefault).is_empty = false

/-- The postcondition of one `defragGo` run starting with budget `b`:
lengths and total entity count are preserved, the number of moves is bounded
by both the budget and the potential, the budget decreases by exactly the
number of moves, `true` means defragmented and `false` means the budget was
exhausted with visible work remaining. -/
def Post (cs : Chunkset) (b : Nat) (r : Bool × Chunkset × Nat × List Move) : Prop :=
  r.2.1.length = cs.length ∧
  r.2.2.2.length ≤ b ∧
  r.2.2.1 + r.2.2.2.length = b ∧
  totalLen r.2.1 = totalLen cs ∧
  phi r.2.1 + r.2.2.2.length ≤ phi cs ∧
  (r.1 = true → isDefragged r.2.1) ∧
  (r.1 = false → r.2.2.1 = 0 ∧ Unfinished r.2.1)

/-- Effect of one inner-loop move on the chunk list: length and total entity
count are preserved and the potential strictly decreases. -/
theorem move_update_facts (cs : Chunkset) (first last : Nat)
    (src1 tgt1 : ComponentStorage)
    (hfl : first < last) (hlast : last < cs.length)
    (hsrc : src1.len + 1 = (cs.getD last cdefault).len)
    (htgt : tgt1.len = (cs.getD first cdefault).len + 1) :
    ((cs.set last src1).set first tgt1).length = cs.length ∧
    totalLen ((cs.set last src1).set first tgt1) = totalLen cs ∧
    phi ((cs.set last src1).set first tgt1) + 1 ≤ phi cs := by
  have hfirst : first < cs.length := by omega
  have hlen : ((cs.set last src1).set first tgt1).length = cs.length := by
    simp [List.length_set]
  have hg : (cs.set last src1).getD first cdefault = cs.getD first cdefault :=
    getD_set_ne cs last first src1 cdefault (by omega)
  have ht1 := totalLen_set src1 cs last hlast
  have ht2 := totalLen_set tgt1 (cs.set last src1) first (by simp [List.length_set]; omega)
  rw [hg, htgt] at ht2
  rw [← hsrc] at ht1
  have hp1 := phiAux_set src1 cs last 0 hlast
  have hp2 := phiAux_set tgt1 (cs.set last src1) first 0 (by simp [List.length_set]; omega)
  rw [hg, htgt] at hp2
  rw [← hsrc] at hp1
  simp only [Nat.zero_add, Nat.mul_succ, Nat.mul_add, Nat.mul_one] at hp1 hp2
  refine ⟨hlen, by omega, ?_⟩
  show phiAux ((cs.set last src1).set first tgt1) 0 + 1 ≤ phiAux cs 0
  generalize hA : last * src1.len = A at hp1
  generalize hB : first * (cs.getD first cdefault).len = B at hp2
  omega

/-- Prepending one move to the result of a recursive defrag run keeps the
postcondition, one budget unit and one unit of potential having been spent
on the move. -/
theorem post_step (cs cs1 : Chunkset) (b : Nat) (mv : Move)
    (r2 : Bool × Chunkset × Nat × List Move)
    (hlen : cs1.length = cs.length)
    (htot : totalLen cs1 = totalLen cs)
    (hphi : phi cs1 + 1 ≤ phi cs)
    (hb : 0 < b)
    (hp2 : Post cs1 (b - 1) r2) :
    Post cs b (r2.1, r2.2.1, r2.2.2.1, mv :: r2.2.2.2) := by
  obtain ⟨q1, q2, q3, q4, q5, q6, q7⟩ := hp2
  refine ⟨by rw [q1, hlen], by simp [List.length_cons]; omega, by simp [List.length_cons]; omega,
    by rw [q4, htot], by simp [List.length_cons]; omega, q6, q7⟩

theorem defragGo_spec : ∀ fuel : Nat,
    (∀ cs first last b, 2 * b + 2 ≤ fuel → PreOuter cs first last →
      ∃ r, defragGo cs fuel first last b false = some r ∧ Post cs b r) ∧
    (∀ cs first last b, 2 * b + 1 ≤ fuel → PreInner cs first last →
      ∃ r, defragGo cs fuel first last b true = some r ∧ Post cs b r) := by
  intro fuel
  induction fuel with
  | zero =>
    exact ⟨fun cs first last b h => by omega, fun cs first last b h => by omega⟩
  | succ fuel ih =>
    obtain ⟨ihOuter, ihInner⟩ := ih
    have innerStep : ∀ cs first last b, 2 * b + 1 ≤ fuel + 1 → PreInner cs first last →
        ∃ r, defragGo cs (fuel + 1) first last b true = some r ∧ Post cs b r := by
      intro cs first last b hfuel hpre
      obtain ⟨⟨hlast, hprefix0, hsuffix0⟩, hflt, hnf, hne⟩ := hpre
      simp only [defragGo]
      by_cases hb : b = 0
      · subst hb
        rw [if_pos rfl]
        refine ⟨(false, cs, 0, []), rfl, rfl, Nat.le_refl _, rfl, rfl, Nat.le_refl _, ?_, ?_⟩
        · intro h; cases h
        · exact fun _ => ⟨rfl, first, last, hflt, hlast, hnf, hne⟩
      · rw [if_neg hb]
        obtain ⟨src1, tgt1, hmove, hsrc1, htgt1⟩ :=
          move_entity_last (cs.getD last cdefault) (cs.getD first cdefault) hne hnf
        rw [hmove]
        simp only [Option.isSome_none, Bool.false_eq_true, if_false]
        have hsrcpos : 0 < (cs.getD last cdefault).len := (is_empty_false_iff _).mp hne
        obtain ⟨hulen, hutot, huphi⟩ := move_update_facts cs first last src1 tgt1 hflt hlast
          (by omega) htgt1
        have hg1 : ((cs.set last src1).set first tgt1).getD first cdefault = tgt1 :=
          getD_set_self _ first tgt1 cdefault (by simp [List.length_set]; omega)
        have hg2 : ((cs.set last src1).set first tgt1).getD last cdefault = src1 := by
          rw [getD_set_ne _ first last tgt1 cdefault (by omega)]
          exact getD_set_self _ last src1 cdefault hlast
        have hcommon : PreCommon ((cs.set last src1).set first tgt1) first last := by
          refine ⟨by rw [hulen]; exact hlast, ?_, ?_⟩
          · intro j hj
            rw [getD_set_ne _ first j tgt1 cdefault (by omega),
              getD_set_ne _ last j src1 cdefault (by omega)]
            exact hprefix0 j hj
          · intro j hj1 hj2
            rw [getD_set_ne _ first j tgt1 cdefault (by omega),
              getD_set_ne _ last j src1 cdefault (by omega)]
            exact hsuffix0 j hj1 (by rw [hulen] at hj2; exact hj2)
        by_cases hbr : tgt1.is_full = true ∨ src1.is_empty = true
        · rw [if_pos hbr]
          obtain ⟨r2, hr2, hp2⟩ := ihOuter ((cs.set last src1).set first tgt1) first last (b - 1)
            (by omega) ⟨hcommon, by omega⟩
          rw [hr2]
          exact ⟨_, rfl, post_step _ _ b _ r2 hulen hutot huphi (by omega) hp2⟩
        · rw [if_neg hbr]
          push_neg at hbr
          obtain ⟨hbr1, hbr2⟩ := hbr
          obtain ⟨r2, hr2, hp2⟩ := ihInner ((cs.set last src1).set first tgt1) first last (b - 1)
            (by omega)
            ⟨hcommon, hflt, by rw [hg1]; exact Bool.eq_false_iff.mpr hbr1,
              by rw [hg2]; exact Bool.eq_false_iff.mpr hbr2⟩
          rw [hr2]
          exact ⟨_, rfl, post_step _ _ b _ r2 hulen hutot huphi (by omega) hp2⟩
    refine ⟨?_, innerStep⟩
    intro cs first last b hfuel hpre
    obtain ⟨⟨hlast, hprefix0, hsuffix0⟩, hle⟩ := hpre
    simp only [defragGo]
    obtain ⟨ha1, ha2, ha3, ha4⟩ := advanceFirst_spec cs first last hle
    obtain ⟨hr1, hr2, hr3, hr4⟩ := retreatLast_spec cs (advanceFirst cs first last) last ha2
    set f := advanceFirst cs first last with hf
    set l := retreatLast cs f last with hl
    have hfull : ∀ j, j < f → (cs.getD j cdefault).is_full = true := by
      intro j hj
      rcases Nat.lt_or_ge j first with h1 | h1
      · exact hprefix0 j h1
      · exact ha3 j h1 hj
    have hempty : ∀ j, l < j → j < cs.length → (cs.getD j cdefault).is_empty = true := by
      intro j hj1 hj2
      rcases le_or_lt j last with h1 | h1
      · exact hr3 j hj1 h1
      · exact hsuffix0 j h1 hj2
    by_cases heq : f = l
    · rw [if_pos heq]
      refine ⟨(true, cs, b, []), rfl, rfl, Nat.zero_le b, rfl, rfl, Nat.le_refl _, ?_, ?_⟩
      · intro _
        show isDefragged cs
        exact ⟨f, by omega, hfull, fun j hj1 hj2 => hempty j (by omega) hj2⟩
      · intro h; cases h
    · rw [if_neg heq]
      have hfl : f < l := by
        rcases Nat.eq_or_lt_of_le hr1 with he | hlt
        · exact absurd he heq
        · exact hlt
      have hnf : (cs.getD f cdefault).is_full = false := by
        rcases ha4 with he | hx
        · omega
        · exact hx
      have hne : (cs.getD l cdefault).is_empty = false := by
        rcases hr4 with he | hx
        · omega
        · exact hx
      exact ihInner cs f l b (by omega) ⟨⟨by omega, hfull, hempty⟩, hfl, hnf, hne⟩

theorem getD_eq_getElem {α : Type} (l : List α) (j : Nat) (d : α) (h : j < l.length) :
    l.getD j d = l[j] := by
  simp [List.getD_eq_getElem?_getD, List.getElem?_eq_getElem h]

theorem getD_append_left' {α : Type} (s t : List α) (j : Nat) (d : α) (h : j < s.length) :
    (s ++ t).getD j d = s.getD j d := by
  simp [List.getD_eq_getElem?_getD, List.getElem?_append_left h]

theorem getD_append_right' {α : Type} (s t : List α) (j : Nat) (d : α) (h : s.length ≤ j) :
    (s ++ t).getD j d = t.getD (j - s.length) d := by
  simp [List.getD_eq_getElem?_getD, List.getElem?_append_right h]

/-- The occupied-slice postcondition transfers to the reassembled chunk-set
(`slice' ++ trailing empty chunks`). -/
theorem chunkset_defrag_spec (cs : Chunkset) (b : Nat) (hocc : 0 < occupiedLen cs) :
    ∃ c cs2 b1 ms, Chunkset.defrag cs b = some (c, cs2, b1, ms) ∧
      cs2.length = cs.length ∧
      ms.length ≤ b ∧
      b1 + ms.length = b ∧
      ms.length ≤ phi cs ∧
      totalLen cs2 = totalLen cs ∧
      phi cs2 + ms.length ≤ phi cs ∧
      (c = true → isDefragged cs2) ∧
      (c = false → b1 = 0 ∧ ¬ isDefragged cs2) := by
  have hnle : occupiedLen cs ≤ cs.length := occupiedLen_le cs
  have hslice : (cs.take (occupiedLen cs)).length = occupiedLen cs :=
    List.length_take_of_le hnle
  have hdropempty : ∀ i, i < (cs.drop (occupiedLen cs)).length →
      ((cs.drop (occupiedLen cs)).getD i cdefault).is_empty = true := by
    intro i hi
    have : (cs.drop (occupiedLen cs)).getD i cdefault = cs.getD (occupiedLen cs + i) cdefault := by
      simp [List.getD_eq_getElem?_getD, List.getElem?_drop]
    rw [this]
    exact occupiedLen_suffix cs (occupiedLen cs + i) (by omega)
      (by rw [List.length_drop] at hi; omega)
  have hdropempty' : ∀ c ∈ cs.drop (occupiedLen cs), c.is_empty = true := by
    intro c hc
    obtain ⟨i, hi, hei⟩ := List.getElem_of_mem hc
    rw [← hei, ← getD_eq_getElem _ i cdefault hi]
    exact hdropempty i hi
  have hphi_cs : phi cs = phi (cs.take (occupiedLen cs)) := by
    conv_lhs => rw [← List.take_append_drop (occupiedLen cs) cs]
    unfold phi
    rw [phiAux_append, phiAux_zero_of_empty _ hdropempty']
    omega
  have htot_cs : totalLen cs =
      totalLen (cs.take (occupiedLen cs)) + totalLen (cs.drop (occupiedLen cs)) := by
    conv_lhs => rw [← List.take_append_drop (occupiedLen cs) cs]
    exact totalLen_append _ _
  obtain ⟨r, hreq, hpost⟩ := (defragGo_spec (2 * b + 2)).1 (cs.take (occupiedLen cs)) 0
    ((cs.take (occupiedLen cs)).length - 1) b (Nat.le_refl _)
    ⟨⟨by omega, fun j hj => by omega, fun j hj1 hj2 => by omega⟩, by omega⟩
  obtain ⟨q1, q2, q3, q4, q5, q6, q7⟩ := hpost
  refine ⟨r.1, r.2.1 ++ cs.drop (occupiedLen cs), r.2.2.1, r.2.2.2, ?_, ?_, q2, q3, ?_, ?_, ?_, ?_, ?_⟩
  · unfold Chunkset.defrag
    rw [if_neg (by omega)]
    rw [hreq]
    rfl
  · rw [List.length_append, q1, hslice, List.length_drop]
    omega
  · rw [hphi_cs]
    omega
  · rw [totalLen_append, q4, htot_cs]
  · have : phi (r.2.1 ++ cs.drop (occupiedLen cs)) = phi r.2.1 := by
      unfold phi
      rw [phiAux_append, phiAux_zero_of_empty _ hdropempty']
      omega
    rw [this, hphi_cs]
    exact q5
  · intro hc
    obtain ⟨p, hp, hfull, hempty⟩ := q6 hc
    refine ⟨p, ?_, ?_, ?_⟩
    · rw [List.length_append]
      omega
    · intro j hj
      rw [getD_append_left' _ _ j cdefault (by omega)]
      exact hfull j hj
    · intro j hj1 hj2
      rcases Nat.lt_or_ge j r.2.1.length with h1 | h1
      · rw [getD_append_left' _ _ j cdefault h1]
        exact hempty j hj1 h1
      · rw [getD_append_right' _ _ j cdefault h1]
        exact hdropempty (j - r.2.1.length)
          (by rw [List.length_append] at hj2; omega)
  · intro hc
    obtain ⟨hb0, u, v, huv, hv, hu, hvne⟩ := q7 hc
    refine ⟨hb0, unfinished_not_defragged ⟨u, v, huv, ?_, ?_, ?_⟩⟩
    · rw [List.length_append]
      omega
    · rw [getD_append_left' _ _ u cdefault (by omega)]
      exact hu
    · rw [getD_append_left' _ _ v cdefault (by omega)]
      exact hvne

/-- Repeated calls of `Chunkset::defrag` with a fixed budget `b`, stopping
at the first complete call. -/
def defragN (b : Nat) : Nat → Chunkset → Option (Bool × Chunkset)
  | 0, cs => some (false, cs)
  | k + 1, cs =>
    match Chunkset.defrag cs b with
    | none => none
    | some (true, cs1, _, _) => some (true, cs1)
    | some (false, cs1, _, _) => defragN b k cs1

/-- Every incomplete call with a positive budget strictly decreases the
potential, so repeated bounded-budget calls eventually report complete. -/
theorem defragN_eventually (b : Nat) (hb : 0 < b) :
    ∀ (m : Nat) (cs : Chunkset), phi cs ≤ m → 0 < occupiedLen cs →
      ∃ k cs2, defragN b k cs = some (true, cs2) := by
  intro m
  induction m with
  | zero =>
    intro cs hm hocc
    obtain ⟨c, cs2, b1, ms, heq, _, hms, hbudget, hmphi, htot, _, hT, hF⟩ :=
      chunkset_defrag_spec cs b hocc
    cases c with
    | true =>
      refine ⟨1, cs2, ?_⟩
      show (match Chunkset.defrag cs b with
        | none => none
        | some (true, cs1, _, _) => some (true, cs1)
        | some (false, cs1, _, _) => defragN b 0 cs1) = some (true, cs2)
      rw [heq]
    | false =>
      obtain ⟨hb1, _⟩ := hF rfl
      omega
  | succ m ih =>
    intro cs hm hocc
    obtain ⟨c, cs2, b1, ms, heq, _, hms, hbudget, hmphi, htot, hphi2, hT, hF⟩ :=
      chunkset_defrag_spec cs b hocc
    cases c with
    | true =>
      refine ⟨1, cs2, ?_⟩
      show (match Chunkset.defrag cs b with
        | none => none
        | some (true, cs1, _, _) => some (true, cs1)
        | some (false, cs1, _, _) => defragN b 0 cs1) = some (true, cs2)
      rw [heq]
    | false =>
      obtain ⟨hb1, _⟩ := hF rfl
      have hms_eq : ms.length = b := by omega
      have hocc2 : 0 < occupiedLen cs2 :=
        occupiedLen_pos_of_total cs2 (htot ▸ totalLen_pos_of_occupied cs hocc)
      obtain ⟨k, cs3, hk⟩ := ih cs2 (by omega) hocc2
      refine ⟨k + 1, cs3, ?_⟩
      show (match Chunkset.defrag cs b with
        | none => none
        | some (true, cs1, _, _) => some (true, cs1)
        | some (false, cs1, _, _) => defragN b k cs1) = some (true, cs3)
      rw [heq]
      exact hk

/-- **C6.** For a chunk-set with a non-empty occupied prefix and budget
`b > 0`, one call to chunk-set defrag moves at most `b` entities and
decreases the budget by exactly the number of entities moved (one `on_moved`
notification per moved entity); it returns `false` only with the budget at
zero and compaction visibly incomplete, and returns `true` only in a state
where the cursors met: every chunk before the meeting point is full and
every chunk after it is empty.  Movement is monotone across calls: repeating
the call with the same bounded budget eventually returns `true`. -/
theorem chunkset_defrag_budget_contract (cs : Chunkset) (b : Nat)
    (hocc : 0 < occupiedLen cs) (hb : 0 < b) :
    ∃ c cs2 b1 ms, Chunkset.defrag cs b = some (c, cs2, b1, ms) ∧
      ms.length ≤ b ∧
      b1 + ms.length = b ∧
      (c = false → b1 = 0 ∧ ¬ isDefragged cs2) ∧
      (c = true → isDefragged cs2) ∧
      (∃ k cs3, defragN b k cs = some (true, cs3)) := by
  obtain ⟨c, cs2, b1, ms, heq, _, hms, hbudget, _, _, _, hT, hF⟩ :=
    chunkset_defrag_spec cs b hocc
  exact ⟨c, cs2, b1, ms, heq, hms, hbudget, hF, hT,
    defragN_eventually b hb (phi cs) cs (Nat.le_refl _) hocc⟩

/-! Archetype- and world-level defragmentation lemmas (for C4 and C10). -/

/-- Sum of the defrag potentials of a list of chunk sets. -/
def phiSets : List Chunkset → Nat
  | [] => 0
  | cs :: rest => phi cs + phiSets rest

/-- Defrag potential of an archetype. -/
def phiArch (a : ArchetypeData) : Nat := phiSets a.chunk_sets

/-- The per-chunk-set loop of `ArchetypeData::defrag` threads the budget
through the chunk sets: it never aborts when every set has a non-empty
occupied prefix, accounts the budget exactly, preserves occupancy, reports
`false` only on budget exhaustion, and completes whenever the budget exceeds
the total potential. -/
theorem archDefragGo_spec (archIndex : Nat) :
    ∀ (sets : List Chunkset) (i b : Nat),
      (∀ cs ∈ sets, 0 < occupiedLen cs) →
      ∃ c sets1 b1 ms, archDefragGo archIndex i sets b = some (c, sets1, b1, ms) ∧
        sets1.length = sets.length ∧
        b1 + ms.length = b ∧
        ms.length ≤ phiSets sets ∧
        phiSets sets1 + ms.length ≤ phiSets sets ∧
        (∀ cs ∈ sets1, 0 < occupiedLen cs) ∧
        (c = false → b1 = 0) ∧
        (phiSets sets < b → c = true) ∧
        (c = true → ∀ cs ∈ sets1, isDefragged cs) := by
  intro sets
  induction sets with
  | nil =>
    intro i b hocc
    exact ⟨true, [], b, [], rfl, rfl, rfl, Nat.le_refl _, Nat.le_refl _,
      fun cs h => absurd h (List.not_mem_nil cs), fun h => Bool.noConfusion h,
      fun _ => rfl, fun _ cs h => absurd h (List.not_mem_nil cs)⟩
  | cons cs rest ih =>
    intro i b hocc
    obtain ⟨c0, cs1, b1, ms0, heq, hlen0, hmsb0, hbud0, hmsphi0, htot0, hphi0, hT0, hF0⟩ :=
      chunkset_defrag_spec cs b (hocc cs (by simp))
    have hocc1 : 0 < occupiedLen cs1 :=
      occupiedLen_pos_of_total cs1 (htot0 ▸ totalLen_pos_of_occupied cs (hocc cs (by simp)))
    cases c0 with
    | false =>
      obtain ⟨hb10, hnd⟩ := hF0 rfl
      refine ⟨false, cs1 :: rest, b1,
        ms0.map fun m => (m.1, ⟨archIndex, i, m.2.1, m.2.2⟩),
        by simp only [archDefragGo, heq], by simp [hlen0],
        by simp only [List.length_map]; omega, ?_, ?_, ?_, fun _ => hb10, ?_,
        fun h => Bool.noConfusion h⟩
      · simp only [List.length_map, phiSets]
        omega
      · simp only [List.length_map, phiSets]
        omega
      · intro x hx
        rcases List.mem_cons.mp hx with h | h
        · rw [h]; exact hocc1
        · exact hocc x (by simp [h])
      · intro hlt
        exfalso
        simp only [phiSets] at hlt
        omega
    | true =>
      obtain ⟨c2, rest1, b2, ms2, heq2, hlen2, hbud2, hmsphi2, hphi2, hoccr, hFr, hbig, hDr⟩ :=
        ih (i + 1) b1 fun x hx => hocc x (by simp [hx])
      refine ⟨c2, cs1 :: rest1, b2,
        (ms0.map fun m => (m.1, ⟨archIndex, i, m.2.1, m.2.2⟩)) ++ ms2,
        by simp only [archDefragGo, heq, heq2], by simp [hlen0, hlen2], ?_, ?_, ?_, ?_,
        hFr, ?_, ?_⟩
      · simp only [List.length_append, List.length_map]
        omega
      · simp only [List.length_append, List.length_map, phiSets]
        omega
      · simp only [List.length_append, List.length_map, phiSets]
        omega
      · intro x hx
        rcases List.mem_cons.mp hx with h | h
        · rw [h]; exact hocc1
        · exact hoccr x h
      · intro hlt
        simp only [phiSets] at hlt
        exact hbig (by omega)
      · intro hc x hx
        rcases List.mem_cons.mp hx with h | h
        · rw [h]; exact hT0 rfl
        · exact hDr hc x h

/-- `ArchetypeData::defrag` at the archetype granularity. -/
theorem archetype_defrag_spec (a : ArchetypeData) (b : Nat)
    (hocc : ∀ cs ∈ a.chunk_sets, 0 < occupiedLen cs) :
    ∃ c a1 b1 ms, a.defrag b = some (c, a1, b1, ms) ∧
      a1.index = a.index ∧ a1.tags = a.tags ∧ a1.capacity = a.capacity ∧ a1.desc = a.desc ∧
      b1 + ms.length = b ∧
      ms.length ≤ phiArch a ∧
      phiArch a1 + ms.length ≤ phiArch a ∧
      (∀ cs ∈ a1.chunk_sets, 0 < occupiedLen cs) ∧
      (c = false → b1 = 0) ∧
      (phiArch a < b → c = true) ∧
      (c = true → ∀ cs ∈ a1.chunk_sets, isDefragged cs) := by
  obtain ⟨c, sets1, b1, ms, heq, hlen, hbud, hmsphi, hphi, hoccr, hF, hbig, hD⟩ :=
    archDefragGo_spec a.index a.chunk_sets 0 b hocc
  refine ⟨c, { a with chunk_sets := sets1 }, b1, ms, ?_, rfl, rfl, rfl, rfl,
    hbud, hmsphi, hphi, hoccr, hF, hbig, hD⟩
  unfold ArchetypeData.defrag
  rw [heq]

/-- Every chunk-set of every archetype of the world has a non-empty occupied
prefix (the condition under which a defrag pass cannot abort). -/
def WorldOccupied (w : World) : Prop :=
  ∀ arch ∈ w.storage.archetypes, ∀ cs ∈ arch.chunk_sets, 0 < occupiedLen cs

/-- All chunk sets of an archetype are defragmented. -/
def ArchSetsDefragged (a : ArchetypeData) : Prop :=
  ∀ cs ∈ a.chunk_sets, isDefragged cs

/-- Defrag potential of a list of archetypes. -/
def phiArchs : List ArchetypeData → Nat
  | [] => 0
  | a :: rest => phiArch a + phiArchs rest

/-- Archetype at index `j` of a world. -/
def archAt (w : World) (j : Nat) : ArchetypeData :=
  w.storage.archetypes.getD j adefault

theorem getD_mem {α : Type} (l : List α) (j : Nat) (d : α) (h : j < l.length) :
    l.getD j d ∈ l := by
  rw [getD_eq_getElem l j d h]
  exact List.getElem_mem h

theorem phiArchs_getD_le (l : List ArchetypeData) (j : Nat) (h : j < l.length) :
    phiArch (l.getD j adefault) ≤ phiArchs l := by
  induction l generalizing j with
  | nil => simp at h
  | cons a rest ih =>
    cases j with
    | zero => simp [phiArchs]
    | succ j =>
      have := ih j (by simpa using Nat.lt_of_succ_lt_succ h)
      simp only [List.getD_cons_succ, phiArchs]
      omega

theorem phiArchs_set (a : ArchetypeData) (l : List ArchetypeData) (j : Nat)
    (h : j < l.length) :
    phiArchs (l.set j a) + phiArch (l.getD j adefault) = phiArchs l + phiArch a := by
  induction l generalizing j with
  | nil => simp at h
  | cons a0 rest ih =>
    cases j with
    | zero => simp [phiArchs]; omega
    | succ j =>
      have := ih j (by simpa using Nat.lt_of_succ_lt_succ h)
      simp only [List.set, List.getD_cons_succ, phiArchs]
      omega

theorem occupied_set {P : ArchetypeData → Prop} (l : List ArchetypeData) (j : Nat)
    (a1 : ArchetypeData) (h : ∀ arch ∈ l, P arch) (ha1 : P a1) :
    ∀ arch ∈ l.set j a1, P arch := by
  intro arch harch
  rcases List.mem_or_eq_of_mem_set harch with hm | hm
  · exact h arch hm
  · rw [hm]; exact ha1

/-- One iteration of the `World::defrag` loop after a successful archetype
defrag: update the archetype, apply the location notifications, advance the
progress cursor when complete. -/
def stepWorld (w : World) (c : Bool) (a1 : ArchetypeData)
    (ms : List (Entity × EntityLocation)) : World :=
  { w with
    storage := { w.storage with
      archetypes := w.storage.archetypes.set w.defrag_progress a1 }
    entity_allocator := ms.foldl (fun a m => a.set_location m.1.index m.2) w.entity_allocator
    defrag_progress :=
      if c then (w.defrag_progress + 1) % w.storage.archetypes.length
      else w.defrag_progress }

theorem defragLoop_step (w : World) (start b fuel : Nat)
    (hlt : w.defrag_progress < w.storage.archetypes.length)
    (c : Bool) (a1 : ArchetypeData) (b1 : Nat) (ms : List (Entity × EntityLocation))
    (heq : (w.storage.archetypes.getD w.defrag_progress adefault).defrag b =
      some (c, a1, b1, ms)) :
    World.defragLoop w start b (fuel + 1) =
      if b1 = 0 ∨ (stepWorld w c a1 ms).defrag_progress = start then some (stepWorld w c a1 ms)
      else World.defragLoop (stepWorld w c a1 ms) start b1 fuel := by
  simp only [World.defragLoop]
  rw [if_pos hlt, heq]
  rfl

theorem archAt_stepWorld_ne (w : World) (c : Bool) (a1 : ArchetypeData)
    (ms : List (Entity × EntityLocation)) (j : Nat) (h : j ≠ w.defrag_progress) :
    archAt (stepWorld w c a1 ms) j = archAt w j :=
  getD_set_ne _ _ _ _ _ h

theorem archAt_stepWorld_self (w : World) (c : Bool) (a1 : ArchetypeData)
    (ms : List (Entity × EntityLocation))
    (h : w.defrag_progress < w.storage.archetypes.length) :
    archAt (stepWorld w c a1 ms) w.defrag_progress = a1 :=
  getD_set_self _ _ _ _ h

theorem stepWorld_occupied (w : World) (c : Bool) (a1 : ArchetypeData)
    (ms : List (Entity × EntityLocation)) (hw : WorldOccupied w)
    (ha1 : ∀ cs ∈ a1.chunk_sets, 0 < occupiedLen cs) :
    WorldOccupied (stepWorld w c a1 ms) :=
  occupied_set _ _ _ hw ha1

/-- The defrag loop never aborts on a world whose chunk sets all have
non-empty occupied prefixes, whatever the budget. -/
theorem defragLoop_no_abort : ∀ (fuel : Nat) (w : World) (start b : Nat),
    WorldOccupied w → ∃ w1, World.defragLoop w start b fuel = some w1 := by
  intro fuel
  induction fuel with
  | zero => exact fun w start b _ => ⟨w, rfl⟩
  | succ fuel ih =>
    intro w start b hocc
    by_cases hlt : w.defrag_progress < w.storage.archetypes.length
    · obtain ⟨c, a1, b1, ms, heq, _, _, _, _, _, _, _, hocc1, _, _, _⟩ :=
        archetype_defrag_spec (w.storage.archetypes.getD w.defrag_progress adefault) b
          (hocc _ (getD_mem _ _ _ hlt))
      rw [defragLoop_step w start b fuel hlt c a1 b1 ms heq]
      by_cases hstop : b1 = 0 ∨ (stepWorld w c a1 ms).defrag_progress = start
      · rw [if_pos hstop]
        exact ⟨_, rfl⟩
      · rw [if_neg hstop]
        exact ih _ start b1 (stepWorld_occupied w c a1 ms hocc hocc1)
    · refine ⟨w, ?_⟩
      simp only [World.defragLoop]
      rw [if_neg hlt]

/-- **C4 (amended).** `World::defrag` (with any budget) does not abort
provided every chunk-set of every archetype has a non-empty occupied prefix;
the fatal empty-chunk-set error is reachable through the public API as soon
as a chunk-set's chunks are all empty (see `defrag_abort_reachable`). -/
theorem defrag_no_abort_when_occupied (w : World) (budget : Option Nat)
    (hocc : ∀ arch ∈ w.storage.archetypes, ∀ cs ∈ arch.chunk_sets, 0 < occupiedLen cs) :
    ∃ w1, w.defrag budget = some w1 :=
  defragLoop_no_abort _ w _ _ hocc

/-- Witness for C4's amended theorem: a one-archetype world holding one
entity. -/
theorem defrag_no_abort_when_occupied_witness :
    (∀ arch ∈ (⟨⟨[[1]], [[0]],
        [⟨0, ⟨[0], [(1, ⟨8⟩)]⟩, [(0, [5])], 2048,
          [[⟨2048, [⟨0, 0⟩], [(1, ⟨[7], 2048, 1, true⟩)], some ()⟩]]⟩]⟩,
      ⟨1, [(0, 0, ⟨0, 0, 0, 0⟩)], [⟨0, 0⟩]⟩, 0⟩ : World).storage.archetypes,
      ∀ cs ∈ arch.chunk_sets, 0 < occupiedLen cs) ∧
    ∃ w1, (⟨⟨[[1]], [[0]],
        [⟨0, ⟨[0], [(1, ⟨8⟩)]⟩, [(0, [5])], 2048,
          [[⟨2048, [⟨0, 0⟩], [(1, ⟨[7], 2048, 1, true⟩)], some ()⟩]]⟩]⟩,
      ⟨1, [(0, 0, ⟨0, 0, 0, 0⟩)], [⟨0, 0⟩]⟩, 0⟩ : World).defrag (some 10) = some w1 :=
  ⟨by decide,
    defrag_no_abort_when_occupied _ (some 10) (by decide)⟩

/-- The tail phase of the `World::defrag` loop: running with the progress
cursor strictly below `start` defragments every archetype in
`[progress, start)` and stops at `start`, touching nothing else. -/
theorem defragLoop_run_B : ∀ (m : Nat) (w : World) (start b fuel : Nat),
    start - w.defrag_progress = m → w.defrag_progress < start →
    start < w.storage.archetypes.length →
    WorldOccupied w →
    phiArchs w.storage.archetypes < b →
    m ≤ fuel →
    ∃ w1, World.defragLoop w start b fuel = some w1 ∧
      w1.storage.archetypes.length = w.storage.archetypes.length ∧
      ∀ j, j < w.storage.archetypes.length →
        ((w.defrag_progress ≤ j ∧ j < start → ArchSetsDefragged (archAt w1 j)) ∧
         (j < w.defrag_progress ∨ start ≤ j → archAt w1 j = archAt w j)) := by
  intro m
  induction m with
  | zero =>
    intro w start b fuel hm hlt
    omega
  | succ m ih =>
    intro w start b fuel hm hlt hstart hocc hphi hfuel
    cases fuel with
    | zero => omega
    | succ fuel =>
      have hp : w.defrag_progress < w.storage.archetypes.length := by omega
      obtain ⟨c, a1, b1, ms, heq, _, _, _, _, hbud, hmsphi, hphia, hocc1, _, hbig, hD⟩ :=
        archetype_defrag_spec (w.storage.archetypes.getD w.defrag_progress adefault) b
          (hocc _ (getD_mem _ _ _ hp))
      have hc : c = true :=
        hbig (Nat.lt_of_le_of_lt (phiArchs_getD_le _ _ hp) hphi)
      subst hc
      have hset := phiArchs_set a1 w.storage.archetypes w.defrag_progress hp
      have hphi1 : phiArchs (w.storage.archetypes.set w.defrag_progress a1) < b1 := by
        omega
      have hprog1 : (stepWorld w true a1 ms).defrag_progress = w.defrag_progress + 1 := by
        unfold stepWorld
        simp only [if_pos]
        exact Nat.mod_eq_of_lt (by omega)
      rw [defragLoop_step w start b fuel hp true a1 b1 ms heq]
      by_cases hstop : w.defrag_progress + 1 = start
      · rw [if_pos (Or.inr (by rw [hprog1]; exact hstop))]
        refine ⟨_, rfl, by simp [stepWorld, List.length_set], ?_⟩
        intro j hj
        constructor
        · intro ⟨hj1, hj2⟩
          have hjp : j = w.defrag_progress := by omega
          rw [hjp, archAt_stepWorld_self w true a1 ms hp]
          exact hD rfl
        · intro hj1
          exact archAt_stepWorld_ne w true a1 ms j (by omega)
      · rw [if_neg (by
          rw [hprog1]
          push_neg
          exact ⟨by omega, hstop⟩)]
        obtain ⟨w2, hw2, hlen2, hjs⟩ := ih (stepWorld w true a1 ms) start b1 fuel
          (by rw [hprog1]; omega) (by rw [hprog1]; omega)
          (by simpa [stepWorld, List.length_set] using hstart)
          (stepWorld_occupied w true a1 ms hocc hocc1)
          (by simpa [stepWorld, List.length_set] using hphi1) (by omega)
        refine ⟨w2, hw2, by simpa [stepWorld, List.length_set] using hlen2, ?_⟩
        intro j hj
        have hj' : j < (stepWorld w true a1 ms).storage.archetypes.length := by
          simpa [stepWorld, List.length_set] using hj
        obtain ⟨hD2, hU2⟩ := hjs j hj'
        rw [hprog1] at hD2 hU2
        constructor
        · intro ⟨hj1, hj2⟩
          rcases Nat.eq_or_lt_of_le hj1 with hje | hjlt
          · rw [← hje] at hD2 hU2 ⊢
            rw [hU2 (Or.inl (by omega)), archAt_stepWorld_self w true a1 ms hp]
            exact hD rfl
          · exact hD2 ⟨by omega, hj2⟩
        · intro hj1
          rw [hU2 (by omega)]
          exact archAt_stepWorld_ne w true a1 ms j (by omega)

/-- The head phase of the `World::defrag` loop: starting at
`start ≤ progress < len` with a budget above the total potential, the loop
defragments `[progress, len)`, wraps, defragments `[0, start)` and stops at
`start`; archetypes in `[start, progress)` are untouched. -/
theorem defragLoop_run_A : ∀ (m : Nat) (w : World) (start b fuel : Nat),
    w.storage.archetypes.length - w.defrag_progress = m → 0 < m →
    start ≤ w.defrag_progress →
    start < w.storage.archetypes.length →
    WorldOccupied w →
    phiArchs w.storage.archetypes < b →
    m + start ≤ fuel →
    ∃ w1, World.defragLoop w start b fuel = some w1 ∧
      w1.storage.archetypes.length = w.storage.archetypes.length ∧
      ∀ j, j < w.storage.archetypes.length →
        ((w.defrag_progress ≤ j ∨ j < start → ArchSetsDefragged (archAt w1 j)) ∧
         (start ≤ j ∧ j < w.defrag_progress → archAt w1 j = archAt w j)) := by
  intro m
  induction m with
  | zero =>
    intro w start b fuel hm hpos
    omega
  | succ m ih =>
    intro w start b fuel hm hpos hsle hstart hocc hphi hfuel
    cases fuel with
    | zero => omega
    | succ fuel =>
      have hp : w.defrag_progress < w.storage.archetypes.length := by omega
      obtain ⟨c, a1, b1, ms, heq, _, _, _, _, hbud, hmsphi, hphia, hocc1, _, hbig, hD⟩ :=
        archetype_defrag_spec (w.storage.archetypes.getD w.defrag_progress adefault) b
          (hocc _ (getD_mem _ _ _ hp))
      have hc : c = true :=
        hbig (Nat.lt_of_le_of_lt (phiArchs_getD_le _ _ hp) hphi)
      subst hc
      have hset := phiArchs_set a1 w.storage.archetypes w.defrag_progress hp
      have hphi1 : phiArchs (w.storage.archetypes.set w.defrag_progress a1) < b1 := by
        omega
      rw [defragLoop_step w start b fuel hp true a1 b1 ms heq]
      by_cases hwrap : w.defrag_progress + 1 < w.storage.archetypes.length
      · -- no wrap: the cursor advances to progress + 1
        have hprog1 : (stepWorld w true a1 ms).defrag_progress = w.defrag_progress + 1 := by
          unfold stepWorld
          simp only [if_pos]
          exact Nat.mod_eq_of_lt hwrap
        rw [if_neg (by
          rw [hprog1]
          push_neg
          exact ⟨by omega, by omega⟩)]
        obtain ⟨w2, hw2, hlen2, hjs⟩ := ih (stepWorld w true a1 ms) start b1 fuel
          (by rw [hprog1]; simp [stepWorld, List.length_set]; omega)
          (by omega)
          (by rw [hprog1]; omega)
          (by simpa [stepWorld, List.length_set] using hstart)
          (stepWorld_occupied w true a1 ms hocc hocc1)
          (by simpa [stepWorld, List.length_set] using hphi1) (by omega)
        refine ⟨w2, hw2, by simpa [stepWorld, List.length_set] using hlen2, ?_⟩
        intro j hj
        have hj' : j < (stepWorld w true a1 ms).storage.archetypes.length := by
          simpa [stepWorld, List.length_set] using hj
        obtain ⟨hD2, hU2⟩ := hjs j hj'
        rw [hprog1] at hD2 hU2
        constructor
        · intro hj1
          rcases hj1 with hj1 | hj1
          · rcases Nat.eq_or_lt_of_le hj1 with hje | hjlt
            · rw [← hje] at hU2 ⊢
              rw [hU2 ⟨by omega, by omega⟩, archAt_stepWorld_self w true a1 ms hp]
              exact hD rfl
            · exact hD2 (Or.inl (by omega))
          · exact hD2 (Or.inr hj1)
        · intro ⟨hj1, hj2⟩
          rw [hU2 ⟨hj1, by omega⟩]
          exact archAt_stepWorld_ne w true a1 ms j (by omega)
      · -- wrap: progress + 1 = len, the cursor goes to 0
        have hplen : w.defrag_progress + 1 = w.storage.archetypes.length := by omega
        have hprog1 : (stepWorld w true a1 ms).defrag_progress = 0 := by
          unfold stepWorld
          simp only [if_pos]
          rw [hplen]
          exact Nat.mod_self _
        by_cases hstart0 : start = 0
        · rw [if_pos (Or.inr (by rw [hprog1, hstart0]))]
          refine ⟨_, rfl, by simp [stepWorld, List.length_set], ?_⟩
          intro j hj
          constructor
          · intro hj1
            have hjp : j = w.defrag_progress := by omega
            rw [hjp, archAt_stepWorld_self w true a1 ms hp]
            exact hD rfl
          · intro ⟨hj1, hj2⟩
            exact archAt_stepWorld_ne w true a1 ms j (by omega)
        · rw [if_neg (by
            rw [hprog1]
            push_neg
            exact ⟨by omega, fun h => hstart0 h.symm⟩)]
          obtain ⟨w2, hw2, hlen2, hjs⟩ := defragLoop_run_B start (stepWorld w true a1 ms)
            start b1 fuel (by rw [hprog1]; omega) (by rw [hprog1]; omega)
            (by simpa [stepWorld, List.length_set] using hstart)
            (stepWorld_occupied w true a1 ms hocc hocc1)
            (by simpa [stepWorld, List.length_set] using hphi1) (by omega)
          refine ⟨w2, hw2, by simpa [stepWorld, List.length_set] using hlen2, ?_⟩
          intro j hj
          have hj' : j < (stepWorld w true a1 ms).storage.archetypes.length := by
            simpa [stepWorld, List.length_set] using hj
          obtain ⟨hD2, hU2⟩ := hjs j hj'
          rw [hprog1] at hD2 hU2
          constructor
          · intro hj1
            rcases hj1 with hj1 | hj1
            · have hjp : j = w.defrag_progress := by omega
              rw [hjp] at hU2 ⊢
              rw [hU2 (Or.inr (by omega)), archAt_stepWorld_self w true a1 ms hp]
              exact hD rfl
            · exact hD2 ⟨by omega, hj1⟩
          · intro ⟨hj1, hj2⟩
            rw [hU2 (Or.inr hj1)]
            exact archAt_stepWorld_ne w true a1 ms j (by omega)

/-- **C10.** `World::defrag` with `budget = None` runs with budget
`usize::MAX`; since all movement is bounded by the world's displacement
potential (which on a real machine is below `usize::MAX`), no archetype
stops for budget, and one call visits every archetype — from
`defrag_progress` up, wrapping around to `start` — leaving every chunk-set
of every archetype completely defragmented, provided no chunk-set triggers
the empty-chunk-set abort. -/
theorem world_defrag_unbudgeted (w : World)
    (hocc : ∀ arch ∈ w.storage.archetypes, ∀ cs ∈ arch.chunk_sets, 0 < occupiedLen cs)
    (hphi : phiArchs w.storage.archetypes < usizeMax)
    (hprog : w.defrag_progress < w.storage.archetypes.length ∨ w.storage.archetypes = []) :
    World.defrag w none = w.defragB usizeMax ∧
    ∃ w1, World.defrag w none = some w1 ∧
      ∀ arch ∈ w1.storage.archetypes, ∀ cs ∈ arch.chunk_sets, isDefragged cs := by
  refine ⟨rfl, ?_⟩
  rcases hprog with hlt | hnil
  · obtain ⟨w1, hw1, hlen1, hjs⟩ := defragLoop_run_A
      (w.storage.archetypes.length - w.defrag_progress) w w.defrag_progress usizeMax
      (w.storage.archetypes.length + 1) rfl (by omega) (Nat.le_refl _) hlt hocc hphi (by omega)
    refine ⟨w1, hw1, ?_⟩
    intro arch harch cs hcs
    obtain ⟨j, hj, hje⟩ := List.getElem_of_mem harch
    have hjlen : j < w.storage.archetypes.length := by omega
    have harchAt : archAt w1 j = arch := by
      rw [archAt, getD_eq_getElem _ j adefault (by omega), hje]
    obtain ⟨hDj, _⟩ := hjs j hjlen
    rcases Nat.lt_or_ge j w.defrag_progress with h1 | h1
    · exact (harchAt ▸ hDj (Or.inr h1)) cs hcs
    · exact (harchAt ▸ hDj (Or.inl h1)) cs hcs
  · refine ⟨w, ?_, ?_⟩
    · show World.defragLoop w w.defrag_progress usizeMax
        (w.storage.archetypes.length + 1) = some w
      simp only [World.defragLoop]
      rw [if_neg (by rw [hnil]; simp)]
    · intro arch harch
      rw [hnil] at harch
      exact absurd harch (List.not_mem_nil arch)

/-- Witness for C10 at a concrete one-archetype world holding one entity. -/
theorem world_defrag_unbudgeted_witness :
    ((∀ arch ∈ (⟨⟨[[1]], [[0]],
        [⟨0, ⟨[0], [(1, ⟨8⟩)]⟩, [(0, [5])], 2048,
          [[⟨2048, [⟨0, 0⟩], [(1, ⟨[7], 2048, 1, true⟩)], some ()⟩]]⟩]⟩,
      ⟨1, [(0, 0, ⟨0, 0, 0, 0⟩)], [⟨0, 0⟩]⟩, 0⟩ : World).storage.archetypes,
      ∀ cs ∈ arch.chunk_sets, 0 < occupiedLen cs) ∧
     phiArchs (⟨⟨[[1]], [[0]],
        [⟨0, ⟨[0], [(1, ⟨8⟩)]⟩, [(0, [5])], 2048,
          [[⟨2048, [⟨0, 0⟩], [(1, ⟨[7], 2048, 1, true⟩)], some ()⟩]]⟩]⟩,
      ⟨1, [(0, 0, ⟨0, 0, 0, 0⟩)], [⟨0, 0⟩]⟩, 0⟩ : World).storage.archetypes < usizeMax) ∧
    (World.defrag (⟨⟨[[1]], [[0]],
        [⟨0, ⟨[0], [(1, ⟨8⟩)]⟩, [(0, [5])], 2048,
          [[⟨2048, [⟨0, 0⟩], [(1, ⟨[7], 2048, 1, true⟩)], some ()⟩]]⟩]⟩,
      ⟨1, [(0, 0, ⟨0, 0, 0, 0⟩)], [⟨0, 0⟩]⟩, 0⟩ : World) none =
      World.defragB (⟨⟨[[1]], [[0]],
        [⟨0, ⟨[0], [(1, ⟨8⟩)]⟩, [(0, [5])], 2048,
          [[⟨2048, [⟨0, 0⟩], [(1, ⟨[7], 2048, 1, true⟩)], some ()⟩]]⟩]⟩,
      ⟨1, [(0, 0, ⟨0, 0, 0, 0⟩)], [⟨0, 0⟩]⟩, 0⟩ : World) usizeMax ∧
    ∃ w1, World.defrag (⟨⟨[[1]], [[0]],
        [⟨0, ⟨[0], [(1, ⟨8⟩)]⟩, [(0, [5])], 2048,
          [[⟨2048, [⟨0, 0⟩], [(1, ⟨[7], 2048, 1, true⟩)], some ()⟩]]⟩]⟩,
      ⟨1, [(0, 0, ⟨0, 0, 0, 0⟩)], [⟨0, 0⟩]⟩, 0⟩ : World) none = some w1 ∧
      ∀ arch ∈ w1.storage.archetypes, ∀ cs ∈ arch.chunk_sets, isDefragged cs) :=
  ⟨⟨by decide, by decide⟩,
    world_defrag_unbudgeted _ (by decide) (by decide) (Or.inl (by decide))⟩

/-! ## C9: `World::delete` -/

/-- A successful positional lookup implies the index is in bounds. -/
theorem lt_of_get?_eq_some {α : Type} {l : List α} {i : Nat} {a : α}
    (h : l.get? i = some a) : i < l.length := by
  by_contra hcon
  rw [List.get?_eq_none.mpr (by omega)] at h
  cases h

theorem get?_set_self {α : Type} (l : List α) (i : Nat) (a : α) (h : i < l.length) :
    (l.set i a).get? i = some a := by
  rw [List.get?_eq_getElem?]
  simp [List.getElem?_set, h]

theorem get?_eq_some_getD {α : Type} (l : List α) (j : Nat) (d : α) (h : j < l.length) :
    l.get? j = some (l.getD j d) := by
  rw [List.get?_eq_getElem?, List.getElem?_eq_getElem h, List.getD_eq_getElem?_getD,
    List.getElem?_eq_getElem h]
  rfl

/-- Redirecting one index's location does not change liveness of any entity. -/
theorem is_alive_set_location (a : EntityAllocator) (idx : Nat) (loc0 : EntityLocation)
    (e : Entity) : (a.set_location idx loc0).is_alive e = a.is_alive e := by
  unfold EntityAllocator.set_location EntityAllocator.is_alive
  rw [List.any_map]
  congr 1
  funext x
  by_cases hx : x.1 = idx <;> simp [Function.comp, hx]

/-- After filtering an entity's entry out of the allocator, it is dead. -/
theorem not_alive_after_filter (l : List (Nat × Nat × EntityLocation)) (e : Entity) :
    ((l.filter fun y => ¬(y.1 = e.index ∧ y.2.1 = e.gen)).any
      fun x => x.1 = e.index ∧ x.2.1 = e.gen) = false := by
  rw [List.any_eq_false]
  intro x hx
  have h2 := (List.mem_filter.mp hx).2
  simp only [decide_not, Bool.not_eq_true', decide_eq_false_iff_not] at h2
  simp only [decide_eq_true_eq]
  exact h2

/-- `find?` on an entry list with no duplicate indices locates exactly the
member entry with the sought index. -/
theorem find?_key_of_mem_nodup (l : List (Nat × Nat × EntityLocation))
    (x : Nat × Nat × EntityLocation) (idx : Nat) (hx : x ∈ l) (hidx : x.1 = idx)
    (hnodup : (l.map fun y => y.1).Nodup) :
    (l.find? fun y => y.1 = idx) = some x := by
  induction l with
  | nil => cases hx
  | cons p rest ih =>
    have hnd : p.1 ∉ rest.map (fun y => y.1) ∧ (rest.map fun y => y.1).Nodup := by
      rw [List.map_cons, List.nodup_cons] at hnodup
      exact hnodup
    rcases List.mem_cons.mp hx with rfl | hx2
    · exact List.find?_cons_of_pos _ (by simp [hidx])
    · by_cases hp : p.1 = idx
      · exfalso
        apply hnd.1
        rw [hp, ← hidx]
        exact List.mem_map.mpr ⟨x, hx2, rfl⟩
      · rw [List.find?_cons_of_neg _ (by simp [hp])]
        exact ih hx2 hnd.2

/-- Looking up an index after rewriting its entry's location yields the new
location, provided an entry with that index is present. -/
theorem find?_key_map_update (l : List (Nat × Nat × EntityLocation)) (idx : Nat)
    (loc0 : EntityLocation) (hx : ∃ x ∈ l, x.1 = idx) :
    (((l.map fun x => if x.1 = idx then (x.1, x.2.1, loc0) else x).find?
      fun x => x.1 = idx).map fun x => x.2.2) = some loc0 := by
  induction l with
  | nil =>
    obtain ⟨x, hmem, _⟩ := hx
    cases hmem
  | cons p rest ih =>
    by_cases hp : p.1 = idx
    · simp only [List.map_cons]
      rw [if_pos hp, List.find?_cons_of_pos _ (by simp [hp])]
      rfl
    · simp only [List.map_cons]
      rw [if_neg hp, List.find?_cons_of_neg _ (by simp [hp])]
      apply ih
      obtain ⟨x, hmem, hkey⟩ := hx
      rcases List.mem_cons.mp hmem with rfl | h2
      · exact absurd hkey hp
      · exact ⟨x, h2, hkey⟩

/-- Witness for C6: two half-full capacity-2 chunks. -/
theorem chunkset_defrag_budget_contract_witness :
    (0 < occupiedLen
      [⟨2, [⟨1, 0⟩], [(1, ⟨[5], 2, 0, false⟩)], some ()⟩,
       ⟨2, [⟨2, 0⟩], [(1, ⟨[6], 2, 0, false⟩)], some ()⟩]) ∧
    (0 < 5) ∧
    (∃ c cs2 b1 ms,
      Chunkset.defrag
        [⟨2, [⟨1, 0⟩], [(1, ⟨[5], 2, 0, false⟩)], some ()⟩,
         ⟨2, [⟨2, 0⟩], [(1, ⟨[6], 2, 0, false⟩)], some ()⟩] 5 = some (c, cs2, b1, ms) ∧
      ms.length ≤ 5 ∧
      b1 + ms.length = 5 ∧
      (c = false → b1 = 0 ∧ ¬ isDefragged cs2) ∧
      (c = true → isDefragged cs2) ∧
      (∃ k cs3, defragN 5 k
        [⟨2, [⟨1, 0⟩], [(1, ⟨[5], 2, 0, false⟩)], some ()⟩,
         ⟨2, [⟨2, 0⟩], [(1, ⟨[6], 2, 0, false⟩)], some ()⟩] = some (true, cs3))) :=
  ⟨by decide, by decide,
    chunkset_defrag_budget_contract
      [⟨2, [⟨1, 0⟩], [(1, ⟨[5], 2, 0, false⟩)], some ()⟩,
       ⟨2, [⟨2, 0⟩], [(1, ⟨[6], 2, 0, false⟩)], some ()⟩] 5 (by decide) (by decide)⟩

/-- **C9.** `World::delete(e)` returns `false` and leaves the world unchanged
when `e` is not alive.  Otherwise (the allocator holds an entry for `e` with
location `loc`, and the location chase succeeds with `loc.component` in
bounds) it returns `true`, clears `e`'s allocator slot — `e` is no longer
alive and `get_component`/`get_tag` on it return `None` — performs
`swap_remove` with `drop = true` on `e`'s chunk at `loc.component`, stores
the result back at `loc`, and, when a swap victim `v` was moved into the
freed slot (exactly when `loc.component` was not the last slot), redirects
`v`'s recorded location to `loc`, keeping `v` alive and readable with
unchanged component values (given that `v` was recorded at the last slot of
the chunk, indices are duplicate-free, and the component slices had one
value per entity). -/
theorem world_delete_contract (w : World) (e : Entity) :
    (w.is_alive e = false → w.delete e = some (false, w)) ∧
    (∀ (loc : EntityLocation) (arch : ArchetypeData) (cset : Chunkset)
       (chunk : ComponentStorage),
      (w.entity_allocator.entries.find? fun x => x.1 = e.index ∧ x.2.1 = e.gen) =
        some (e.index, e.gen, loc) →
      w.storage.archetypes.get? loc.archetype = some arch →
      arch.chunk_sets.get? loc.set = some cset →
      cset.get? loc.chunk = some chunk →
      loc.component < chunk.entities.length →
      ∃ res chunk1 w1,
        chunk.swap_remove loc.component true = some (res, chunk1) ∧
        w.delete e = some (true, w1) ∧
        w1.is_alive e = false ∧
        (∀ t, w1.get_component e t = none) ∧
        (∀ t, w1.get_tag e t = none) ∧
        (((w1.storage.archetypes.get? loc.archetype).bind fun a =>
            a.chunk_sets.get? loc.set).bind fun cs => cs.get? loc.chunk) = some chunk1 ∧
        (res = some (chunk.entities.getLastD edefault) ↔
          loc.component < chunk.entities.length - 1) ∧
        (∀ v, res = some v →
          v.index ≠ e.index →
          ((v.index, v.gen,
            (⟨loc.archetype, loc.set, loc.chunk, chunk.entities.length - 1⟩ :
              EntityLocation)) ∈ w.entity_allocator.entries) →
          (w.entity_allocator.entries.map fun y => y.1).Nodup →
          (∀ t acc, assocGet chunk.comps t = some acc →
            acc.data.length = chunk.entities.length) →
          w1.entity_allocator.get_location v.index = some loc ∧
          w1.is_alive v = true ∧
          (∀ t, w1.get_component v t = w.get_component v t))) := by
  constructor
  · intro hdead
    have hnone : (w.entity_allocator.entries.find?
        fun x => x.1 = e.index ∧ x.2.1 = e.gen) = none := by
      rw [List.find?_eq_none]
      exact List.any_eq_false.mp hdead
    unfold World.delete EntityAllocator.delete_entity
    rw [hnone]
  · intro loc arch cset chunk hentry harch hset hchunk hcomp
    have harchlt : loc.archetype < w.storage.archetypes.length := lt_of_get?_eq_some harch
    have hsetlt : loc.set < arch.chunk_sets.length := lt_of_get?_eq_some hset
    have hchklt : loc.chunk < cset.length := lt_of_get?_eq_some hchunk
    obtain ⟨res, chunk1, hsw, hents, hlen1, hcompsEq, hcompsGet, hresIff, hresAny, hlastNone,
      hgetD⟩ := swap_remove_aux chunk loc.component true hcomp
    have hdel1 : w.entity_allocator.delete_entity e = (some loc,
        { w.entity_allocator with
          entries := w.entity_allocator.entries.filter
            fun y => ¬(y.1 = e.index ∧ y.2.1 = e.gen) }) := by
      unfold EntityAllocator.delete_entity
      rw [hentry]
    have h2 : ({ arch with
        chunk_sets := arch.chunk_sets.set loc.set (cset.set loc.chunk chunk1) } :
        ArchetypeData).chunk_sets.get? loc.set = some (cset.set loc.chunk chunk1) :=
      get?_set_self arch.chunk_sets loc.set (cset.set loc.chunk chunk1) hsetlt
    have h3 : (cset.set loc.chunk chunk1).get? loc.chunk = some chunk1 :=
      get?_set_self cset loc.chunk chunk1 hchklt
    cases res with
    | none =>
      have hdel : w.delete e = some (true,
          { w with
            storage := { w.storage with
              archetypes := w.storage.archetypes.set loc.archetype
                { arch with
                  chunk_sets := arch.chunk_sets.set loc.set (cset.set loc.chunk chunk1) } }
            entity_allocator := { w.entity_allocator with
              entries := w.entity_allocator.entries.filter
                fun y => ¬(y.1 = e.index ∧ y.2.1 = e.gen) } }) := by
        unfold World.delete
        simp only [hdel1, harch, hset, hchunk, hsw]
      have halive1F : ({ w with
          storage := { w.storage with
            archetypes := w.storage.archetypes.set loc.archetype
              { arch with
                chunk_sets := arch.chunk_sets.set loc.set (cset.set loc.chunk chunk1) } }
          entity_allocator := { w.entity_allocator with
            entries := w.entity_allocator.entries.filter
              fun y => ¬(y.1 = e.index ∧ y.2.1 = e.gen) } } : World).is_alive e = false :=
        not_alive_after_filter w.entity_allocator.entries e
      have h1 : ({ w with
          storage := { w.storage with
            archetypes := w.storage.archetypes.set loc.archetype
              { arch with
                chunk_sets := arch.chunk_sets.set loc.set (cset.set loc.chunk chunk1) } }
          entity_allocator := { w.entity_allocator with
            entries := w.entity_allocator.entries.filter
              fun y => ¬(y.1 = e.index ∧ y.2.1 = e.gen) } } :
          World).storage.archetypes.get? loc.archetype = some
          { arch with
            chunk_sets := arch.chunk_sets.set loc.set (cset.set loc.chunk chunk1) } :=
        get?_set_self w.storage.archetypes loc.archetype _ harchlt
      refine ⟨none, chunk1, _, hsw, hdel, halive1F, ?_, ?_, ?_, hresIff,
        fun v hv => Option.noConfusion hv⟩
      · intro t
        unfold World.get_component
        rw [if_pos halive1F]
      · intro t
        unfold World.get_tag
        rw [if_pos halive1F]
      · rw [h1]
        show (({ arch with
            chunk_sets := arch.chunk_sets.set loc.set (cset.set loc.chunk chunk1) } :
            ArchetypeData).chunk_sets.get? loc.set).bind
          (fun cs => cs.get? loc.chunk) = some chunk1
        rw [h2]
        exact h3
    | some v0 =>
      have hdel : w.delete e = some (true,
          { w with
            storage := { w.storage with
              archetypes := w.storage.archetypes.set loc.archetype
                { arch with
                  chunk_sets := arch.chunk_sets.set loc.set (cset.set loc.chunk chunk1) } }
            entity_allocator := EntityAllocator.set_location
              { w.entity_allocator with
                entries := w.entity_allocator.entries.filter
                  fun y => ¬(y.1 = e.index ∧ y.2.1 = e.gen) } v0.index loc }) := by
        unfold World.delete
        simp only [hdel1, harch, hset, hchunk, hsw]
      have halive1F : ({ w with
          storage := { w.storage with
            archetypes := w.storage.archetypes.set loc.archetype
              { arch with
                chunk_sets := arch.chunk_sets.set loc.set (cset.set loc.chunk chunk1) } }
          entity_allocator := EntityAllocator.set_location
            { w.entity_allocator with
              entries := w.entity_allocator.entries.filter
                fun y => ¬(y.1 = e.index ∧ y.2.1 = e.gen) } v0.index loc } :
          World).is_alive e = false := by
        show EntityAllocator.is_alive (EntityAllocator.set_location
          { w.entity_allocator with
            entries := w.entity_allocator.entries.filter
              fun y => ¬(y.1 = e.index ∧ y.2.1 = e.gen) } v0.index loc) e = false
        rw [is_alive_set_location]
        exact not_alive_after_filter w.entity_allocator.entries e
      have h1 : ({ w with
          storage := { w.storage with
            archetypes := w.storage.archetypes.set loc.archetype
              { arch with
                chunk_sets := arch.chunk_sets.set loc.set (cset.set loc.chunk chunk1) } }
          entity_allocator := EntityAllocator.set_location
            { w.entity_allocator with
              entries := w.entity_allocator.entries.filter
                fun y => ¬(y.1 = e.index ∧ y.2.1 = e.gen) } v0.index loc } :
          World).storage.archetypes.get? loc.archetype = some
          { arch with
            chunk_sets := arch.chunk_sets.set loc.set (cset.set loc.chunk chunk1) } :=
        get?_set_self w.storage.archetypes loc.archetype _ harchlt
      refine ⟨some v0, chunk1, _, hsw, hdel, halive1F, ?_, ?_, ?_, hresIff, ?_⟩
      · intro t
        unfold World.get_component
        rw [if_pos halive1F]
      · intro t
        unfold World.get_tag
        rw [if_pos halive1F]
      · rw [h1]
        show (({ arch with
            chunk_sets := arch.chunk_sets.set loc.set (cset.set loc.chunk chunk1) } :
            ArchetypeData).chunk_sets.get? loc.set).bind
          (fun cs => cs.get? loc.chunk) = some chunk1
        rw [h2]
        exact h3
      · intro v hv hvne hvmem hnodup hI2
        have hv0 : v = v0 := by
          injection hv with hv2
          exact hv2.symm
        subst hv0
        have hlast : v = chunk.entities.getLastD edefault := hresAny v rfl
        have hlt2 : loc.component < chunk.entities.length - 1 :=
          hresIff.mp (congrArg some hlast)
        have hmem1 : ((v.index, v.gen,
            (⟨loc.archetype, loc.set, loc.chunk, chunk.entities.length - 1⟩ :
              EntityLocation)) ∈
            w.entity_allocator.entries.filter
              fun y => ¬(y.1 = e.index ∧ y.2.1 = e.gen)) := by
          rw [List.mem_filter]
          refine ⟨hvmem, ?_⟩
          simp [hvne]
        have hloc1 : ({ w with
            storage := { w.storage with
              archetypes := w.storage.archetypes.set loc.archetype
                { arch with
                  chunk_sets := arch.chunk_sets.set loc.set (cset.set loc.chunk chunk1) } }
            entity_allocator := EntityAllocator.set_location
              { w.entity_allocator with
                entries := w.entity_allocator.entries.filter
                  fun y => ¬(y.1 = e.index ∧ y.2.1 = e.gen) } v.index loc } :
            World).entity_allocator.get_location v.index = some loc :=
          find?_key_map_update
            (w.entity_allocator.entries.filter
              fun y => ¬(y.1 = e.index ∧ y.2.1 = e.gen)) v.index loc
            ⟨_, hmem1, rfl⟩
        have halive1 : ({ w with
            storage := { w.storage with
              archetypes := w.storage.archetypes.set loc.archetype
                { arch with
                  chunk_sets := arch.chunk_sets.set loc.set (cset.set loc.chunk chunk1) } }
            entity_allocator := EntityAllocator.set_location
              { w.entity_allocator with
                entries := w.entity_allocator.entries.filter
                  fun y => ¬(y.1 = e.index ∧ y.2.1 = e.gen) } v.index loc } :
            World).is_alive v = true := by
          show EntityAllocator.is_alive (EntityAllocator.set_location
            { w.entity_allocator with
              entries := w.entity_allocator.entries.filter
                fun y => ¬(y.1 = e.index ∧ y.2.1 = e.gen) } v.index loc) v = true
          rw [is_alive_set_location]
          show ((w.entity_allocator.entries.filter
            fun y => ¬(y.1 = e.index ∧ y.2.1 = e.gen)).any
            fun x => x.1 = v.index ∧ x.2.1 = v.gen) = true
          exact List.any_eq_true.mpr ⟨_, hmem1, by simp⟩
        have halive0 : w.is_alive v = true := by
          show (w.entity_allocator.entries.any
            fun x => x.1 = v.index ∧ x.2.1 = v.gen) = true
          exact List.any_eq_true.mpr ⟨_, hvmem, by simp⟩
        have hloc0 : w.entity_allocator.get_location v.index = some
            (⟨loc.archetype, loc.set, loc.chunk, chunk.entities.length - 1⟩ :
              EntityLocation) := by
          unfold EntityAllocator.get_location
          rw [find?_key_of_mem_nodup w.entity_allocator.entries _ v.index hvmem rfl hnodup]
          rfl
        refine ⟨hloc1, halive1, ?_⟩
        intro t
        unfold World.get_component
        rw [if_neg (by rw [halive1]; exact fun hcon => Bool.noConfusion hcon),
          if_neg (by rw [halive0]; exact fun hcon => Bool.noConfusion hcon)]
        cases hacc : assocGet chunk.comps t with
        | none =>
          have haccL : assocGet chunk1.comps t = none := by
            rw [hcompsEq,
              assocGet_map (fun x => Accessor.swapRemoveW x loc.component true)
                chunk.comps t, hacc]
            rfl
          simp only [hloc1, hloc0, h1, h2, h3, harch, hset, hchunk, haccL, hacc]
        | some acc =>
          have haccL := hcompsGet t acc hacc
          have hlenacc := hI2 t acc hacc
          simp only [hloc1, hloc0, h1, h2, h3, harch, hset, hchunk, haccL, hacc]
          rw [get?_dropLast (acc.data.set loc.component (acc.data.getLastD 0)) loc.component
              (by rw [List.length_set]; omega),
            get?_set_self acc.data loc.component (acc.data.getLastD 0) (by omega),
            get?_eq_some_getD acc.data (chunk.entities.length - 1) 0 (by omega),
            getLastD_eq_getD, hlenacc]

/-- A two-entity world witnessing the delete contract: entities `(0, 0)` and
`(1, 0)` share one chunk holding component-type-1 values `[7, 9]`. -/
def c9Chunk : ComponentStorage :=
  ⟨2048, [⟨0, 0⟩, ⟨1, 0⟩], [(1, ⟨[7, 9], 2048, 2, true⟩)], some ()⟩

def c9Arch : ArchetypeData :=
  ⟨0, ⟨[0], [(1, ⟨8⟩)]⟩, [(0, [5])], 2048, [[c9Chunk]]⟩

def c9World : World :=
  ⟨⟨[[1]], [[0]], [c9Arch]⟩,
    ⟨2, [(0, 0, ⟨0, 0, 0, 0⟩), (1, 0, ⟨0, 0, 0, 1⟩)], []⟩, 0⟩

/-- Witness for C9: deleting the dead entity `(2, 0)` is a no-op returning
`false`; deleting entity `(0, 0)` from the two-entity chunk swaps entity
`(1, 0)` into slot 0 and redirects its location. -/
theorem world_delete_contract_witness :
    c9World.delete ⟨2, 0⟩ = some (false, c9World) ∧
    ∃ res chunk1 w1,
      c9Chunk.swap_remove 0 true = some (res, chunk1) ∧
      c9World.delete ⟨0, 0⟩ = some (true, w1) ∧
      w1.is_alive ⟨0, 0⟩ = false ∧
      (∀ t, w1.get_component ⟨0, 0⟩ t = none) ∧
      (∀ t, w1.get_tag ⟨0, 0⟩ t = none) ∧
      (((w1.storage.archetypes.get? 0).bind fun a =>
          a.chunk_sets.get? 0).bind fun cs => cs.get? 0) = some chunk1 ∧
      (res = some (c9Chunk.entities.getLastD edefault) ↔
        0 < c9Chunk.entities.length - 1) ∧
      (∀ v, res = some v →
        v.index ≠ (0 : Nat) →
        ((v.index, v.gen,
          (⟨0, 0, 0, c9Chunk.entities.length - 1⟩ : EntityLocation)) ∈
          c9World.entity_allocator.entries) →
        (c9World.entity_allocator.entries.map fun y => y.1).Nodup →
        (∀ t acc, assocGet c9Chunk.comps t = some acc →
          acc.data.length = c9Chunk.entities.length) →
        w1.entity_allocator.get_location v.index = some ⟨0, 0, 0, 0⟩ ∧
        w1.is_alive v = true ∧
        (∀ t, w1.get_component v t = c9World.get_component v t)) :=
  ⟨(world_delete_contract c9World ⟨2, 0⟩).1 (by decide),
    (world_delete_contract c9World ⟨0, 0⟩).2 ⟨0, 0, 0, 0⟩ c9Arch [c9Chunk] c9Chunk
      (by decide) (by decide) (by decide) (by decide) (by decide)⟩

end Legion
